import Mathlib

/-!
Verification of the mustach template-rendering engine (repository
davorinm/mustache, source file Sources/CMustache/mustach.h).

The repository ships the interface header mustach.h only; the rendering
implementation itself is not part of the sources.  Following the header's
documented contract and the specification, the render engine is modelled
below as an executable Lean program over an abstract capability interface.
Machine integers of the C code play no role in the modelled fragment: all
status codes are plain `Int` values and all sizes are `Nat`.

The model is instrumented: every collaborator callback invocation, every
default write, every lent-string release and every engine-raised error is
recorded as an event in a trace, so that the temporal and resource claims
become statements about traces.
-/

/-- Maximum nested imbrications supported (mustach.h, MUSTACH_MAX_DEPTH). -/
def MUSTACH_MAX_DEPTH : Nat := 256

/-- Maximum length of tag names (mustach.h, MUSTACH_MAX_LENGTH). -/
def MUSTACH_MAX_LENGTH : Nat := 1024

/-- Success status (mustach.h, MUSTACH_OK). -/
def MUSTACH_OK : Int := 0

/-- Underlying system failure (mustach.h, MUSTACH_ERROR_SYSTEM). -/
def MUSTACH_ERROR_SYSTEM : Int := -1

/-- Unterminated tag (mustach.h, MUSTACH_ERROR_UNEXPECTED_END). -/
def MUSTACH_ERROR_UNEXPECTED_END : Int := -2

/-- Empty tag name (mustach.h, MUSTACH_ERROR_EMPTY_TAG). -/
def MUSTACH_ERROR_EMPTY_TAG : Int := -3

/-- Tag name exceeding the length bound (mustach.h, MUSTACH_ERROR_TAG_TOO_LONG). -/
def MUSTACH_ERROR_TAG_TOO_LONG : Int := -4

/-- Malformed delimiter-change tag (mustach.h, MUSTACH_ERROR_BAD_SEPARATORS). -/
def MUSTACH_ERROR_BAD_SEPARATORS : Int := -5

/-- Nesting beyond the depth bound (mustach.h, MUSTACH_ERROR_TOO_DEEP). -/
def MUSTACH_ERROR_TOO_DEEP : Int := -6

/-- Mismatched section close (mustach.h, MUSTACH_ERROR_CLOSING). -/
def MUSTACH_ERROR_CLOSING : Int := -7

/-- Malformed unescape syntax (mustach.h, MUSTACH_ERROR_BAD_UNESCAPE_TAG). -/
def MUSTACH_ERROR_BAD_UNESCAPE_TAG : Int := -8

/-- Invalid interface (mustach.h, MUSTACH_ERROR_INVALID_ITF). -/
def MUSTACH_ERROR_INVALID_ITF : Int := -9

/-- Item not found (mustach.h, MUSTACH_ERROR_ITEM_NOT_FOUND). -/
def MUSTACH_ERROR_ITEM_NOT_FOUND : Int := -10

/-- Partial-template not found (mustach.h, MUSTACH_ERROR_PARTIAL_NOT_FOUND). -/
def MUSTACH_ERROR_PARTIAL_NOT_FOUND : Int := -11

/-- Release discipline of a lent string, mustach.h's mustach_sbuf union:
either no release, release through a plain free-style callback, or release
through a callback receiving an additional closure.  Callbacks and closures
are identified by numeric tokens, which is all the engine may do with them:
it can only hand them back, never inspect them. -/
inductive Discipline where
  | noRelease : Discipline
  | freecb (fid : Nat) : Discipline
  | releasecb (fid : Nat) (clo : Nat) : Discipline
deriving DecidableEq, Repr

/-- Lent zero-terminated string (mustach.h, struct mustach_sbuf): a value
together with its tagged release discipline. -/
structure Sbuf where
  value : List Char
  disc : Discipline
deriving DecidableEq, Repr

/-- Trace events recording every collaborator invocation, default write,
lent-string release and engine-raised error of one render.  `φ` is the type
of the opaque FILE destination handed through to `put` and `emit`. -/
inductive Ev (φ : Type) where
  | startE (rc : Int) : Ev φ
  | putE (name : List Char) (escape : Bool) (file : φ) (rc : Int) : Ev φ
  | enterE (name : List Char) (rc : Int) : Ev φ
  | nextE (rc : Int) : Ev φ
  | leaveE (rc : Int) : Ev φ
  | partialE (name : List Char) (rc : Int) (sb : Sbuf) : Ev φ
  | emitE (bytes : List Char) (escape : Bool) (file : φ) (rc : Int) : Ev φ
  | getE (name : List Char) (rc : Int) (sb : Sbuf) : Ev φ
  | stopE (st : Int) : Ev φ
  | fwr (bytes : List Char) : Ev φ
  | rel (sb : Sbuf) : Ev φ
  | err (code : Int) : Ev φ
deriving DecidableEq, Repr

/-- Capability interface (mustach.h, struct mustach_itf).  The closure the
C code threads through every callback is modelled as a state of type `σ`
returned updated by each callback; the FILE destination is the opaque `φ`.
Every field may be absent, matching the NULL-able function pointers. -/
structure Itf (σ φ : Type) where
  start : Option (σ → σ × Int)
  put : Option (σ → List Char → Bool → φ → σ × Int)
  enter : Option (σ → List Char → σ × Int)
  next : Option (σ → σ × Int)
  leave : Option (σ → σ × Int)
  partialCb : Option (σ → List Char → σ × Int × Sbuf)
  emit : Option (σ → List Char → Bool → φ → σ × Int)
  get : Option (σ → List Char → σ × Int × Sbuf)
  stop : Option (σ → Int → σ)

/-- Current delimiter pair (open, close). -/
def Delim : Type := List Char × List Char

/-- Default mustache delimiters. -/
def dfltDelim : Delim := (['{', '{'], ['}', '}'])

/-- Result of one engine call: either fuel exhaustion (the modelled C code
may not terminate when `next` keeps activating items), or a final state,
the trace produced, the status, the template text remaining after the
matching section close, and the delimiters in force afterwards. -/
inductive Out (σ φ : Type) where
  | div : Out σ φ
  | done (s : σ) (tr : List (Ev φ)) (st : Int) (rest : List Char) (dl : Delim) : Out σ φ

/-- Prefix a trace onto an engine result. -/
def Out.pre (tr0 : List (Ev φ)) : Out σ φ → Out σ φ
  | .div => .div
  | .done s tr st rest dl => .done s (tr0 ++ tr) st rest dl

/-- Modelled from the spec: the tag scanner's primitive (the implementation
file is absent from the sources).  Splits `t` as `pre ++ pat ++ post` around
the first occurrence of `pat`, returning `(pre, post)`, or `none` when `pat`
does not occur. -/
def findSplit (pat : List Char) : List Char → Option (List Char × List Char)
  | [] => none
  | c :: t =>
    if pat.isPrefixOf (c :: t) then some ([], (c :: t).drop pat.length)
    else match findSplit pat t with
      | some (a, b) => some (c :: a, b)
      | none => none

/-- Modelled from the spec: parsing of the inner text of a delimiter-change
tag (spec 4.1; the implementation file is absent from the sources).  The
inner text after the leading sigil must end with the matching sigil and
contain two nonempty whitespace-separated delimiter words. -/
def parseDelim (tail : List Char) : Option Delim :=
  match tail.getLast? with
  | some c =>
    if c = '=' then
      let mid := tail.dropLast
      let a := mid.takeWhile (fun x => x ≠ ' ')
      let r := mid.dropWhile (fun x => x ≠ ' ')
      let b := r.dropWhile (fun x => x = ' ')
      if a ≠ [] ∧ b ≠ [] ∧ b.all (fun x => x ≠ ' ') ∧ r ≠ [] then some (a, b) else none
    else none
  | none => none

/-- Modelled from the spec: recognition of the brace form of unescaped
variable tags (spec 4.2; the implementation file is absent from the
sources).  Given the inner text after the leading brace and the text after
the close delimiter, yields the name and the remaining text, or `none` for
the malformed-unescape error. -/
def unbrace (tail rest : List Char) : Option (List Char × List Char) :=
  match rest with
  | '}' :: r2 => some (tail, r2)
  | _ =>
    match tail.getLast? with
    | some c => if c = '}' then some (tail.dropLast, rest) else none
    | none => none

/-- HTML escaping used by the engine's default write: angle brackets,
ampersand and double quote become their safe entities (spec 4.3, 8). -/
def escapeL : List Char → List Char
  | [] => []
  | c :: t =>
    (if c = '<' then ['&', 'l', 't', ';']
     else if c = '>' then ['&', 'g', 't', ';']
     else if c = '&' then ['&', 'a', 'm', 'p', ';']
     else if c = '"' then ['&', 'q', 'u', 'o', 't', ';']
     else [c]) ++ escapeL t

/-- Modelled from the spec: the engine's low-level write (mustach.h, emit
field; the implementation file is absent from the sources).  When `emit` is
defined it is called instead of fwrite, receiving the raw bytes, the escape
flag and the opaque FILE; when it is absent the engine escapes the bytes
itself if requested and performs a default fwrite to the destination.
Nothing is written for empty byte strings. -/
def writeOut (itf : Itf σ φ) (file : φ) (s : σ) (bytes : List Char) (escape : Bool) :
    σ × List (Ev φ) × Int :=
  if bytes = [] then (s, [], 0)
  else
    match itf.emit with
    | some e =>
      let r := e s bytes escape file
      (r.1, [.emitE bytes escape file r.2], r.2)
    | none => (s, [.fwr (if escape then escapeL bytes else bytes)], 0)

/-- Release of a lent string according to its tagged discipline: the
engine invokes the plain callback or the closure callback exactly when one
is set, and does nothing otherwise (mustach.h, struct mustach_sbuf). -/
def releaseTr (sb : Sbuf) : List (Ev φ) :=
  if sb.disc = .noRelease then [] else [.rel sb]

/-- Modelled from the spec: the output sink for one variable tag (spec 4.3;
the implementation file is absent from the sources).  `get` is preferred
when defined: the lent value is written through `writeOut` and then
released.  Otherwise `put` writes the value itself.  Both absent cannot be
reached after interface validation and yields the invalid-interface
error. -/
def emitValue (itf : Itf σ φ) (file : φ) (s : σ) (name : List Char) (escape : Bool) :
    σ × List (Ev φ) × Int :=
  match itf.get with
  | some g =>
    let r := g s name
    let sb := r.2.2
    if r.2.1 < 0 then (r.1, [.getE name r.2.1 sb], r.2.1)
    else
      let w := writeOut itf file r.1 sb.value escape
      (w.1, .getE name r.2.1 sb :: (w.2.1 ++ releaseTr sb), w.2.2)
  | none =>
    match itf.put with
    | some p =>
      let r := p s name escape file
      (r.1, [.putE name escape file r.2], r.2)
    | none => (s, [.err MUSTACH_ERROR_INVALID_ITF], MUSTACH_ERROR_INVALID_ITF)

/-- Result of skipping over a section body without rendering it. -/
inductive SkipR where
  | divS : SkipR
  | errS (code : Int) : SkipR
  | okS (rest : List Char) (dl : Delim) : SkipR

/-- Modelled from the spec: scanning past the body of a section that was
not activated (spec 4.4, a 0 result of enter skips the body entirely; the
implementation file is absent from the sources).  No collaborator is
invoked; delimiter changes still apply, nested sections are tracked, and
scanning errors are reported.  Returns the text after the matching close
and the delimiters then in force. -/
def skip : Nat → List Char → Delim → List Char → Nat → SkipR
  | 0, _, _, _, _ => .divS
  | f + 1, t, dl, nm, lvl =>
    match findSplit dl.1 t with
    | none => .errS MUSTACH_ERROR_UNEXPECTED_END
    | some pr =>
      match findSplit dl.2 pr.2 with
      | none => .errS MUSTACH_ERROR_UNEXPECTED_END
      | some q =>
        match q.1 with
        | [] => .errS MUSTACH_ERROR_EMPTY_TAG
        | c :: tl =>
          if c = '=' then
            match parseDelim tl with
            | none => .errS MUSTACH_ERROR_BAD_SEPARATORS
            | some dl2 => skip f q.2 dl2 nm lvl
          else if c = '#' ∨ c = '^' then skip f q.2 dl nm (lvl + 1)
          else if c = '/' then
            if lvl = 0 then (if tl = nm then .okS q.2 dl else .errS MUSTACH_ERROR_CLOSING)
            else skip f q.2 dl nm (lvl - 1)
          else skip f q.2 dl nm lvl

/-- Modelled from the spec: the section iteration loop (spec 4.4; the
implementation file is absent from the sources).  Invoked after `enter`
returned a positive value: the body is rendered for the active item, then
`next` decides whether to replay it; `leave` is invoked exactly once on
every exit path, including body errors and negative `next` results, whose
values abort the render; a negative value of a `leave` reached during such
unwinding is not reinterpreted as the result. -/
def iterLoop (nx lv : σ → σ × Int) (body : Delim → σ → Out σ φ) :
    Nat → Delim → σ → Out σ φ
  | 0, _, _ => .div
  | f + 1, dl, s =>
    match body dl s with
    | .div => .div
    | .done s1 tr1 st1 rest1 dl1 =>
      if st1 < 0 then
        let l := lv s1
        .done l.1 (tr1 ++ [.leaveE l.2]) st1 [] dl1
      else
        let n := nx s1
        if n.2 < 0 then
          let l := lv n.1
          .done l.1 (tr1 ++ [.nextE n.2, .leaveE l.2]) n.2 [] dl1
        else if n.2 = 0 then
          let l := lv n.1
          .done l.1 (tr1 ++ [.nextE n.2, .leaveE l.2])
            (if l.2 < 0 then l.2 else 0) rest1 dl1
        else
          match iterLoop nx lv body f dl1 n.1 with
          | .div => .div
          | .done s3 tr3 st3 rest3 dl3 =>
            .done s3 (tr1 ++ .nextE n.2 :: tr3) st3 rest3 dl3

/-- Modelled from the spec: the iteration protocol of an inverted section
whose `enter` reported activation (spec 4.4, 8; the implementation file is
absent from the sources).  The body is rendered zero times; `next` is
still invoked until it reports no further item, then `leave` is invoked
exactly once, negative results aborting as in `iterLoop`. -/
def nextLoop (nx lv : σ → σ × Int) : Nat → σ → Option (σ × List (Ev φ) × Int)
  | 0, _ => none
  | f + 1, s =>
    let n := nx s
    if n.2 < 0 then
      let l := lv n.1
      some (l.1, [.nextE n.2, .leaveE l.2], n.2)
    else if n.2 = 0 then
      let l := lv n.1
      some (l.1, [.nextE n.2, .leaveE l.2], if l.2 < 0 then l.2 else 0)
    else
      match nextLoop nx lv f n.1 with
      | none => none
      | some r => some (r.1, .nextE n.2 :: r.2.1, r.2.2)

/-- Modelled from the spec: dispatch of one variable tag (spec 4.3, 4.6;
the implementation file is absent from the sources).  The value is emitted
through the output sink; a negative status aborts, otherwise rendering
continues through `k`. -/
def varTag (itf : Itf σ φ) (file : φ) (pre : List (Ev φ)) (s : σ) (name : List Char)
    (escape : Bool) (dl : Delim) (k : σ → Out σ φ) : Out σ φ :=
  let w := emitValue itf file s name escape
  if w.2.2 < 0 then .done w.1 (pre ++ w.2.1) w.2.2 [] dl
  else Out.pre (pre ++ w.2.1) (k w.1)

/-- Modelled from the spec: dispatch of one section or inverted-section tag
(spec 4.4; the implementation file is absent from the sources).  The depth
bound is checked before anything else; then `enter` is invoked: a negative
result aborts, a 0 result skips the body (plain section) or renders it once
(inverted section), a positive result runs the iteration protocol (plain)
or the next/leave protocol without rendering (inverted).  `body` renders
the body text, `skv` is the result of scanning past it, `k` continues after
the close with the remaining text and delimiters. -/
def secTag (pre : List (Ev φ)) (en : σ → List Char → σ × Int) (nx lv : σ → σ × Int)
    (s : σ) (name : List Char) (dl : Delim) (depth : Nat) (inverted : Bool)
    (body : Delim → σ → Out σ φ) (skv : SkipR) (lf : Nat)
    (k : σ → List Char → Delim → Out σ φ) : Out σ φ :=
  if MUSTACH_MAX_DEPTH ≤ depth then
    .done s (pre ++ [.err MUSTACH_ERROR_TOO_DEEP]) MUSTACH_ERROR_TOO_DEEP [] dl
  else
    let e := en s name
    let pe := pre ++ [.enterE name e.2]
    if e.2 < 0 then .done e.1 pe e.2 [] dl
    else if e.2 = 0 then
      if inverted then
        match body dl e.1 with
        | .div => .div
        | .done s2 tr2 st2 rest2 dl2 =>
          if st2 < 0 then .done s2 (pe ++ tr2) st2 [] dl2
          else Out.pre (pe ++ tr2) (k s2 rest2 dl2)
      else
        match skv with
        | .divS => .div
        | .errS c => .done e.1 (pe ++ [.err c]) c [] dl
        | .okS rest2 dl2 => Out.pre pe (k e.1 rest2 dl2)
    else
      if inverted then
        match nextLoop nx lv lf e.1 with
        | none => .div
        | some r =>
          if r.2.2 < 0 then .done r.1 (pe ++ r.2.1) r.2.2 [] dl
          else
            match skv with
            | .divS => .div
            | .errS c => .done r.1 (pe ++ r.2.1 ++ [.err c]) c [] dl
            | .okS rest2 dl2 => Out.pre (pe ++ r.2.1) (k r.1 rest2 dl2)
      else
        match iterLoop nx lv body lf dl e.1 with
        | .div => .div
        | .done s2 tr2 st2 rest2 dl2 =>
          if st2 < 0 then .done s2 (pe ++ tr2) st2 [] dl2
          else Out.pre (pe ++ tr2) (k s2 rest2 dl2)

/-- Modelled from the spec: dispatch of one partial tag (spec 4.5,
mustach.h partial field; the implementation file is absent from the
sources).  The depth bound is checked first; the partial text is obtained
preferring the `partial` callback, then `get`, then delegating emission to
`put` invoked with the true FILE; a lent text is rendered through `rb` at
one more nesting level and released exactly once afterwards, on error
paths as well; `k` continues after the tag. -/
def partTag (itf : Itf σ φ) (file : φ) (pre : List (Ev φ)) (s : σ) (name : List Char)
    (dl : Delim) (depth : Nat) (rb : List Char → σ → Out σ φ) (k : σ → Out σ φ) :
    Out σ φ :=
  if MUSTACH_MAX_DEPTH ≤ depth then
    .done s (pre ++ [.err MUSTACH_ERROR_TOO_DEEP]) MUSTACH_ERROR_TOO_DEEP [] dl
  else
    match itf.partialCb with
    | some p =>
      let r := p s name
      let sb := r.2.2
      if r.2.1 < 0 then .done r.1 (pre ++ [.partialE name r.2.1 sb]) r.2.1 [] dl
      else
        match rb sb.value r.1 with
        | .div => .div
        | .done s2 tr2 st2 _ _ =>
          if st2 < 0 then
            .done s2 (pre ++ .partialE name r.2.1 sb :: (tr2 ++ releaseTr sb)) st2 [] dl
          else Out.pre (pre ++ .partialE name r.2.1 sb :: (tr2 ++ releaseTr sb)) (k s2)
    | none =>
      match itf.get with
      | some g =>
        let r := g s name
        let sb := r.2.2
        if r.2.1 < 0 then .done r.1 (pre ++ [.getE name r.2.1 sb]) r.2.1 [] dl
        else
          match rb sb.value r.1 with
          | .div => .div
          | .done s2 tr2 st2 _ _ =>
            if st2 < 0 then
              .done s2 (pre ++ .getE name r.2.1 sb :: (tr2 ++ releaseTr sb)) st2 [] dl
            else Out.pre (pre ++ .getE name r.2.1 sb :: (tr2 ++ releaseTr sb)) (k s2)
      | none =>
        match itf.put with
        | some p =>
          let r := p s name false file
          if r.2 < 0 then .done r.1 (pre ++ [.putE name false file r.2]) r.2 [] dl
          else Out.pre (pre ++ [.putE name false file r.2]) (k r.1)
        | none =>
          .done s (pre ++ [.err MUSTACH_ERROR_INVALID_ITF]) MUSTACH_ERROR_INVALID_ITF [] dl

/-- Modelled from the spec: the recursive render engine (spec 4.6; the
implementation file mustach.c is absent from the sources, only its header
mustach.h is shipped).  Scans the template with the active delimiters,
writes literal spans through the output abstraction, and dispatches each
tag by its sigil: comment, delimiter change, unescaped variable (brace and
ampersand forms), section, inverted section, section close, partial,
escaped variable.  `cls` is the name of the enclosing section whose close
tag ends this call, `depth` the current nesting, `fuel` a bound on the
number of scanning steps making the modelled C loop a total function. -/
def process (itf : Itf σ φ) (en : σ → List Char → σ × Int) (nx lv : σ → σ × Int)
    (file : φ) : Nat → σ → List Char → Delim → Option (List Char) → Nat → Out σ φ
  | 0, _, _, _, _, _ => .div
  | f + 1, s, t, dl, cls, depth =>
    match findSplit dl.1 t with
    | none =>
      let w := writeOut itf file s t false
      if w.2.2 < 0 then .done w.1 w.2.1 w.2.2 [] dl
      else
        match cls with
        | some _ =>
          .done w.1 (w.2.1 ++ [.err MUSTACH_ERROR_UNEXPECTED_END])
            MUSTACH_ERROR_UNEXPECTED_END [] dl
        | none => .done w.1 w.2.1 0 [] dl
    | some pr =>
      let w := writeOut itf file s pr.1 false
      if w.2.2 < 0 then .done w.1 w.2.1 w.2.2 [] dl
      else
        match findSplit dl.2 pr.2 with
        | none =>
          .done w.1 (w.2.1 ++ [.err MUSTACH_ERROR_UNEXPECTED_END])
            MUSTACH_ERROR_UNEXPECTED_END [] dl
        | some q =>
          match q.1 with
          | [] =>
            .done w.1 (w.2.1 ++ [.err MUSTACH_ERROR_EMPTY_TAG])
              MUSTACH_ERROR_EMPTY_TAG [] dl
          | c :: tl =>
            if c = '!' then Out.pre w.2.1 (process itf en nx lv file f w.1 q.2 dl cls depth)
            else if c = '=' then
              match parseDelim tl with
              | none =>
                .done w.1 (w.2.1 ++ [.err MUSTACH_ERROR_BAD_SEPARATORS])
                  MUSTACH_ERROR_BAD_SEPARATORS [] dl
              | some dl2 => Out.pre w.2.1 (process itf en nx lv file f w.1 q.2 dl2 cls depth)
            else if c = '{' then
              match unbrace tl q.2 with
              | none =>
                .done w.1 (w.2.1 ++ [.err MUSTACH_ERROR_BAD_UNESCAPE_TAG])
                  MUSTACH_ERROR_BAD_UNESCAPE_TAG [] dl
              | some nr =>
                if nr.1 = [] then
                  .done w.1 (w.2.1 ++ [.err MUSTACH_ERROR_EMPTY_TAG])
                    MUSTACH_ERROR_EMPTY_TAG [] dl
                else if MUSTACH_MAX_LENGTH < nr.1.length then
                  .done w.1 (w.2.1 ++ [.err MUSTACH_ERROR_TAG_TOO_LONG])
                    MUSTACH_ERROR_TAG_TOO_LONG [] dl
                else
                  varTag itf file w.2.1 w.1 nr.1 false dl
                    (fun s2 => process itf en nx lv file f s2 nr.2 dl cls depth)
            else if c = '&' then
              if tl = [] then
                .done w.1 (w.2.1 ++ [.err MUSTACH_ERROR_EMPTY_TAG])
                  MUSTACH_ERROR_EMPTY_TAG [] dl
              else if MUSTACH_MAX_LENGTH < tl.length then
                .done w.1 (w.2.1 ++ [.err MUSTACH_ERROR_TAG_TOO_LONG])
                  MUSTACH_ERROR_TAG_TOO_LONG [] dl
              else
                varTag itf file w.2.1 w.1 tl false dl
                  (fun s2 => process itf en nx lv file f s2 q.2 dl cls depth)
            else if c = '#' ∨ c = '^' then
              if tl = [] then
                .done w.1 (w.2.1 ++ [.err MUSTACH_ERROR_EMPTY_TAG])
                  MUSTACH_ERROR_EMPTY_TAG [] dl
              else if MUSTACH_MAX_LENGTH < tl.length then
                .done w.1 (w.2.1 ++ [.err MUSTACH_ERROR_TAG_TOO_LONG])
                  MUSTACH_ERROR_TAG_TOO_LONG [] dl
              else
                secTag w.2.1 en nx lv w.1 tl dl depth (c = '^')
                  (fun dl2 s2 => process itf en nx lv file f s2 q.2 dl2 (some tl) (depth + 1))
                  (skip f q.2 dl tl 0) f
                  (fun s2 rest2 dl2 => process itf en nx lv file f s2 rest2 dl2 cls depth)
            else if c = '/' then
              match cls with
              | some nm =>
                if tl = nm then .done w.1 w.2.1 0 q.2 dl
                else
                  .done w.1 (w.2.1 ++ [.err MUSTACH_ERROR_CLOSING])
                    MUSTACH_ERROR_CLOSING [] dl
              | none =>
                .done w.1 (w.2.1 ++ [.err MUSTACH_ERROR_CLOSING])
                  MUSTACH_ERROR_CLOSING [] dl
            else if c = '>' then
              if tl = [] then
                .done w.1 (w.2.1 ++ [.err MUSTACH_ERROR_EMPTY_TAG])
                  MUSTACH_ERROR_EMPTY_TAG [] dl
              else if MUSTACH_MAX_LENGTH < tl.length then
                .done w.1 (w.2.1 ++ [.err MUSTACH_ERROR_TAG_TOO_LONG])
                  MUSTACH_ERROR_TAG_TOO_LONG [] dl
              else
                partTag itf file w.2.1 w.1 tl dl depth
                  (fun txt s2 => process itf en nx lv file f s2 txt dfltDelim none (depth + 1))
                  (fun s2 => process itf en nx lv file f s2 q.2 dl cls depth)
            else
              if MUSTACH_MAX_LENGTH < q.1.length then
                .done w.1 (w.2.1 ++ [.err MUSTACH_ERROR_TAG_TOO_LONG])
                  MUSTACH_ERROR_TAG_TOO_LONG [] dl
              else
                varTag itf file w.2.1 w.1 q.1 true dl
                  (fun s2 => process itf en nx lv file f s2 q.2 dl cls depth)

/-- Final stop notification (mustach.h, stop field): invoked exactly once
at the very end when defined, receiving the final status, regardless of
success or failure. -/
def finish (itf : Itf σ φ) (s : σ) (tr : List (Ev φ)) (st : Int) :
    σ × List (Ev φ) × Int :=
  match itf.stop with
  | some sp => (sp s st, tr ++ [.stopE st], st)
  | none => (s, tr, st)

/-- Modelled from the spec: the render-to-stream entry point (mustach.h,
fmustach; the implementation file is absent from the sources).  Validates
the interface: the mandatory enter/next/leave must be present and at least
one of put/get, otherwise the render fails with the invalid-interface
error before any template scanning; then runs the optional start hook, the
engine, and the stop notification, returning the final state, the full
trace and the status.  `none` marks fuel exhaustion of the model. -/
def fmustach (itf : Itf σ φ) (file : φ) (fuel : Nat) (s : σ) (t : List Char) :
    Option (σ × List (Ev φ) × Int) :=
  match itf.enter, itf.next, itf.leave with
  | some en, some nx, some lv =>
    if itf.put.isNone ∧ itf.get.isNone then
      some (finish itf s [.err MUSTACH_ERROR_INVALID_ITF] MUSTACH_ERROR_INVALID_ITF)
    else
      match itf.start with
      | some hs =>
        let r := hs s
        if r.2 < 0 then some (finish itf r.1 [.startE r.2] r.2)
        else
          match process itf en nx lv file fuel r.1 t dfltDelim none 0 with
          | .div => none
          | .done s2 tr2 st2 _ _ => some (finish itf s2 (.startE r.2 :: tr2) st2)
      | none =>
        match process itf en nx lv file fuel s t dfltDelim none 0 with
        | .div => none
        | .done s2 tr2 st2 _ _ => some (finish itf s2 tr2 st2)
  | _, _, _ =>
    some (finish itf s [.err MUSTACH_ERROR_INVALID_ITF] MUSTACH_ERROR_INVALID_ITF)

/-- Render-to-descriptor entry point (mustach.h, fdmustach): identical
processing, the destination being a raw descriptor wrapped as a stream. -/
def fdmustach (itf : Itf σ φ) (file : φ) (fuel : Nat) (s : σ) (t : List Char) :
    Option (σ × List (Ev φ) × Int) :=
  fmustach itf file fuel s t

/-- Bytes written by the engine itself to the render destination: the
concatenation of all default writes of the trace. -/
def outputOf : List (Ev φ) → List Char
  | [] => []
  | .fwr b :: tr => b ++ outputOf tr
  | _ :: tr => outputOf tr

/-- Modelled from the spec: the render-to-buffer entry point (mustach.h,
mustach; the implementation file is absent from the sources).  Identical
processing; on success the engine-written bytes are returned as the result
buffer, on failure no buffer is returned. -/
def mustach (itf : Itf σ φ) (file : φ) (fuel : Nat) (s : σ) (t : List Char) :
    Option (σ × List (Ev φ) × Int × Option (List Char)) :=
  match fmustach itf file fuel s t with
  | none => none
  | some r => some (r.1, r.2.1, r.2.2, if r.2.2 = 0 then some (outputOf r.2.1) else none)

/-- Generic event counter over a trace. -/
def cCount (g : Ev φ → Nat) : List (Ev φ) → Nat
  | [] => 0
  | e :: tr => g e + cCount g tr

/-- Counts a leave invocation. -/
def evLeave : Ev φ → Nat
  | .leaveE _ => 1
  | _ => 0

/-- Counts an enter invocation that reported activation (positive result). -/
def evEnterPos : Ev φ → Nat
  | .enterE _ rc => if 0 < rc then 1 else 0
  | _ => 0

/-- Counts an enter invocation that returned exactly 1. -/
def evEnterOne : Ev φ → Nat
  | .enterE _ rc => if rc = 1 then 1 else 0
  | _ => 0

/-- Counts a stop notification. -/
def evStop : Ev φ → Nat
  | .stopE _ => 1
  | _ => 0

/-- Counts an emit-callback invocation. -/
def evEmitE : Ev φ → Nat
  | .emitE _ _ _ _ => 1
  | _ => 0

/-- Counts a default fwrite. -/
def evFwr : Ev φ → Nat
  | .fwr _ => 1
  | _ => 0

/-- Counts a successful acquisition of a lent string of discipline `d`
from the get or partial callback. -/
def evAcq (d : Discipline) : Ev φ → Nat
  | .getE _ rc sb => if 0 ≤ rc ∧ sb.disc = d then 1 else 0
  | .partialE _ rc sb => if 0 ≤ rc ∧ sb.disc = d then 1 else 0
  | _ => 0

/-- Counts a release of a lent string of discipline `d`. -/
def evRel (d : Discipline) : Ev φ → Nat
  | .rel sb => if sb.disc = d then 1 else 0
  | _ => 0

/-- Error signal carried by an event: the negative return value of a
collaborator callback, or the code of an engine-raised error.  Stop
notifications, default writes and releases signal nothing. -/
def errishOf : Ev φ → Option Int
  | .startE rc => if rc < 0 then some rc else none
  | .putE _ _ _ rc => if rc < 0 then some rc else none
  | .enterE _ rc => if rc < 0 then some rc else none
  | .nextE rc => if rc < 0 then some rc else none
  | .leaveE rc => if rc < 0 then some rc else none
  | .partialE _ rc _ => if rc < 0 then some rc else none
  | .emitE _ _ _ rc => if rc < 0 then some rc else none
  | .getE _ rc _ => if rc < 0 then some rc else none
  | .stopE _ => none
  | .fwr _ => none
  | .rel _ => none
  | .err c => some c

/-- First error signal of a trace. -/
def firstErrish : List (Ev φ) → Option Int
  | [] => none
  | e :: tr =>
    match errishOf e with
    | some v => some v
    | none => firstErrish tr

/-- Suffix of a trace after its first error signal. -/
def postErr : List (Ev φ) → List (Ev φ)
  | [] => []
  | e :: tr =>
    match errishOf e with
    | some _ => tr
    | none => postErr tr

/-- Cleanup events: the ones the engine may still produce after a fatal
error has been determined (unwinding leave notifications, lent-string
releases, the final stop notification). -/
def isCleanup : Ev φ → Prop
  | .leaveE _ => True
  | .rel _ => True
  | .stopE _ => True
  | _ => False

/-- Opacity of the destination: put and emit invocations carry exactly the
FILE value given to the render entry, other events carry none. -/
def fileOkEv (file : φ) : Ev φ → Prop
  | .putE _ _ f _ => f = file
  | .emitE _ _ f _ => f = file
  | _ => True

/-- A trace is error-free when it carries no error signal. -/
def Clean (tr : List (Ev φ)) : Prop := firstErrish tr = none

/-- A trace failing with `st`: its first error signal is `st` and after it
only cleanup events occur. -/
def Errs (tr : List (Ev φ)) (st : Int) : Prop :=
  firstErrish tr = some st ∧ ∀ e ∈ postErr tr, isCleanup e

/-- Structural bookkeeping of a trace: `k` more leave invocations than
activated enter invocations, no stop notification, releases matching
acquisitions per discipline, no release without a callback, the emit/fwrite
dichotomy of the interface, and destination opacity. -/
def Bal (itf : Itf σ φ) (file : φ) (k : Nat) (tr : List (Ev φ)) : Prop :=
  cCount evLeave tr = cCount evEnterPos tr + k ∧
  cCount evStop tr = 0 ∧
  (∀ d, d ≠ Discipline.noRelease → cCount (evRel d) tr = cCount (evAcq d) tr) ∧
  cCount (evRel Discipline.noRelease) tr = 0 ∧
  (itf.emit = none → cCount evEmitE tr = 0) ∧
  (itf.emit.isSome → cCount evFwr tr = 0) ∧
  (∀ e ∈ tr, fileOkEv file e)

/-- Invariant of an engine call: balanced trace, a negative status is the
trace's first error signal followed only by cleanup, a non-negative status
comes with an error-free trace. -/
def InvO (itf : Itf σ φ) (file : φ) : Out σ φ → Prop
  | .div => True
  | .done _ tr st _ _ =>
    Bal itf file 0 tr ∧ (st < 0 → Errs tr st) ∧ (0 ≤ st → Clean tr)

/-- Invariant of the iteration loops: as `InvO`, with exactly one leave
invocation in excess of the activated enters. -/
def InvL (itf : Itf σ φ) (file : φ) : Out σ φ → Prop
  | .div => True
  | .done _ tr st _ _ =>
    Bal itf file 1 tr ∧ (st < 0 → Errs tr st) ∧ (0 ≤ st → Clean tr)

/-- Invariant of the inverted-section next/leave loop. -/
def InvN (itf : Itf σ φ) (file : φ) : Option (σ × List (Ev φ) × Int) → Prop
  | none => True
  | some r =>
    Bal itf file 1 r.2.1 ∧ (r.2.2 < 0 → Errs r.2.1 r.2.2) ∧ (0 ≤ r.2.2 → Clean r.2.1)

/-- Template family of `n` nested sections named `a`. -/
def nestT : Nat → List Char
  | 0 => []
  | k + 1 =>
    ('{' :: '{' :: '#' :: 'a' :: '}' :: '}' :: nestT k) ++
      ('{' :: '{' :: '/' :: 'a' :: '}' :: '}' :: [])

/-- Minimal conforming interface over a trivial data model: every section
activates exactly one item, every value is empty. -/
def simpleItf : Itf Unit Unit :=
  { start := none, put := none,
    enter := some (fun s _ => (s, 1)),
    next := some (fun s => (s, 0)),
    leave := some (fun s => (s, 0)),
    partialCb := none, emit := none,
    get := some (fun s _ => (s, 0, ⟨[], .noRelease⟩)),
    stop := none }

/-- Template family `AB{{a···a}}CD` with a variable tag of `n` characters. -/
def tmpl7 (n : Nat) : List Char :=
  'A' :: 'B' :: '{' :: '{' :: (List.replicate n 'a' ++ ('}' :: '}' :: 'C' :: 'D' :: []))

/-- Single escaped variable tag. -/
def tmplVar : String := "\x7b\x7bx\x7d\x7d"

/-- One section around one variable tag. -/
def tmplSec : String := "\x7b\x7b#a\x7d\x7d\x7b\x7bx\x7d\x7d\x7b\x7b/a\x7d\x7d"

/-- Single partial tag. -/
def tmplP9 : String := "\x7b\x7b>q\x7d\x7d"

/-- Section, literal and partial combined. -/
def tmplMix : String := "\x7b\x7b#a\x7d\x7d\x7b\x7bx\x7d\x7d\x7b\x7b/a\x7d\x7dL\x7b\x7b>q\x7d\x7d"

/-- Full-featured demonstration interface: one item per section, a lent
value with a free-style release, a lent partial with a closure release,
and a stop hook adding 100 to the state. -/
def wItf : Itf Nat Unit :=
  { start := some (fun s => (s + 1, 0)),
    put := some (fun s _ _ _ => (s, 0)),
    enter := some (fun s _ => (s + 10, 1)),
    next := some (fun s => (s, 0)),
    leave := some (fun s => (s, 0)),
    partialCb := some (fun s _ => (s, 0, ⟨['P'], .releasecb 4 9⟩)),
    emit := none,
    get := some (fun s _ => (s, 0, ⟨['<', 'v'], .freecb 3⟩)),
    stop := some (fun s _ => s + 100) }

/-- Interface whose emit callback records invocations, with get lending a
markup character, used to exhibit what emit actually receives. -/
def itfC2 : Itf Nat Unit :=
  { start := none,
    put := some (fun s _ _ _ => (s, 0)),
    enter := some (fun s _ => (s, 1)),
    next := some (fun s => (s, 0)),
    leave := some (fun s => (s, 0)),
    partialCb := none,
    emit := some (fun s _ _ _ => (s + 1, 0)),
    get := some (fun s _ => (s, 0, ⟨['<'], .noRelease⟩)),
    stop := none }

/-- Interface aborting from get with -50 while leave reports -60, used to
exhibit which negative value a render returns. -/
def itfC4 : Itf Nat Unit :=
  { start := none, put := none,
    enter := some (fun s _ => (s, 1)),
    next := some (fun s => (s, 0)),
    leave := some (fun s => (s, -60)),
    partialCb := none, emit := none,
    get := some (fun s _ => (s, -50, ⟨[], .noRelease⟩)),
    stop := none }

/-- Interface with put and get absent but a stop hook present. -/
def itfC1 : Itf Nat Unit :=
  { start := some (fun s => (s + 1, 0)),
    put := none,
    enter := some (fun s _ => (s, 1)),
    next := some (fun s => (s, 0)),
    leave := some (fun s => (s, 0)),
    partialCb := none, emit := none, get := none,
    stop := some (fun s _ => s + 1000) }

/-- Interface supplying partial, get and put together. -/
def itfC9a : Itf Nat Unit :=
  { start := none,
    put := some (fun s _ _ _ => (s, 0)),
    enter := some (fun s _ => (s, 1)),
    next := some (fun s => (s, 0)),
    leave := some (fun s => (s, 0)),
    partialCb := some (fun s _ => (s, 0, ⟨['P'], .noRelease⟩)),
    emit := none,
    get := some (fun s _ => (s, 0, ⟨['G'], .noRelease⟩)),
    stop := none }

/-- Interface supplying get and put, no partial callback. -/
def itfC9b : Itf Nat Unit := { itfC9a with partialCb := none }

/-- Interface supplying put only among the combinatorial callbacks. -/
def itfC9c : Itf Nat Unit := { itfC9a with partialCb := none, get := none }

theorem cCount_append (g : Ev φ → Nat) (a b : List (Ev φ)) :
    cCount g (a ++ b) = cCount g a + cCount g b := by
  induction a with
  | nil => simp [cCount]
  | cons e t ih => simp [cCount, ih, Nat.add_assoc]

theorem firstErrish_cons_some {e : Ev φ} {v : Int} (tr : List (Ev φ))
    (h : errishOf e = some v) : firstErrish (e :: tr) = some v := by
  simp [firstErrish, h]

theorem firstErrish_cons_none {e : Ev φ} (tr : List (Ev φ))
    (h : errishOf e = none) : firstErrish (e :: tr) = firstErrish tr := by
  simp [firstErrish, h]

theorem postErr_cons_some {e : Ev φ} {v : Int} (tr : List (Ev φ))
    (h : errishOf e = some v) : postErr (e :: tr) = tr := by
  simp [postErr, h]

theorem postErr_cons_none {e : Ev φ} (tr : List (Ev φ))
    (h : errishOf e = none) : postErr (e :: tr) = postErr tr := by
  simp [postErr, h]

theorem firstErrish_append_none {a : List (Ev φ)} (b : List (Ev φ))
    (h : firstErrish a = none) : firstErrish (a ++ b) = firstErrish b := by
  induction a with
  | nil => simp
  | cons e t ih =>
    cases he : errishOf e with
    | some v => rw [firstErrish_cons_some t he] at h; exact absurd h (by simp)
    | none =>
      rw [firstErrish_cons_none t he] at h
      rw [List.cons_append, firstErrish_cons_none _ he]
      exact ih h

theorem firstErrish_append_some {a : List (Ev φ)} {v : Int} (b : List (Ev φ))
    (h : firstErrish a = some v) : firstErrish (a ++ b) = some v := by
  induction a with
  | nil => simp [firstErrish] at h
  | cons e t ih =>
    cases he : errishOf e with
    | some w =>
      rw [firstErrish_cons_some t he] at h
      rw [List.cons_append, firstErrish_cons_some _ he]
      exact h
    | none =>
      rw [firstErrish_cons_none t he] at h
      rw [List.cons_append, firstErrish_cons_none _ he]
      exact ih h

theorem postErr_append_none {a : List (Ev φ)} (b : List (Ev φ))
    (h : firstErrish a = none) : postErr (a ++ b) = postErr b := by
  induction a with
  | nil => simp [postErr]
  | cons e t ih =>
    cases he : errishOf e with
    | some v => rw [firstErrish_cons_some t he] at h; exact absurd h (by simp)
    | none =>
      rw [firstErrish_cons_none t he] at h
      rw [List.cons_append, postErr_cons_none _ he]
      exact ih h

theorem postErr_append_some {a : List (Ev φ)} {v : Int} (b : List (Ev φ))
    (h : firstErrish a = some v) : postErr (a ++ b) = postErr a ++ b := by
  induction a with
  | nil => simp [firstErrish] at h
  | cons e t ih =>
    cases he : errishOf e with
    | some w =>
      rw [List.cons_append, postErr_cons_some _ he, postErr_cons_some _ he]
    | none =>
      rw [firstErrish_cons_none t he] at h
      rw [List.cons_append, postErr_cons_none _ he, postErr_cons_none _ he]
      exact ih h

theorem firstErrish_none_mem {tr : List (Ev φ)} (h : firstErrish tr = none)
    {e : Ev φ} (he : e ∈ tr) : errishOf e = none := by
  induction tr with
  | nil => cases he
  | cons x t ih =>
    cases hx : errishOf x with
    | some v => rw [firstErrish_cons_some t hx] at h; exact absurd h (by simp)
    | none =>
      rw [firstErrish_cons_none t hx] at h
      rcases List.mem_cons.mp he with rfl | hm
      · exact hx
      · exact ih h hm

theorem clean_append {a b : List (Ev φ)} (ha : Clean a) (hb : Clean b) :
    Clean (a ++ b) := by
  unfold Clean at *
  rw [firstErrish_append_none b ha]
  exact hb

theorem errs_append_right {a b : List (Ev φ)} {st : Int} (ha : Clean a)
    (hb : Errs b st) : Errs (a ++ b) st := by
  obtain ⟨h1, h2⟩ := hb
  exact ⟨by rw [firstErrish_append_none b ha]; exact h1,
    by rw [postErr_append_none b ha]; exact h2⟩

theorem errs_append_left {a b : List (Ev φ)} {st : Int} (ha : Errs a st)
    (hb : ∀ e ∈ b, isCleanup e) : Errs (a ++ b) st := by
  obtain ⟨h1, h2⟩ := ha
  refine ⟨firstErrish_append_some b h1, ?_⟩
  rw [postErr_append_some b h1]
  intro e he
  rcases List.mem_append.mp he with hm | hm
  · exact h2 e hm
  · exact hb e hm

theorem bal_nil (itf : Itf σ φ) (file : φ) : Bal itf file 0 [] := by
  simp [Bal, cCount]

theorem bal_append {itf : Itf σ φ} {file : φ} {k m : Nat} {a b : List (Ev φ)}
    (ha : Bal itf file k a) (hb : Bal itf file m b) :
    Bal itf file (k + m) (a ++ b) := by
  obtain ⟨a1, a2, a3, a4, a5, a6, a7⟩ := ha
  obtain ⟨b1, b2, b3, b4, b5, b6, b7⟩ := hb
  refine ⟨?_, ?_, ?_, ?_, ?_, ?_, ?_⟩
  · rw [cCount_append, cCount_append, a1, b1]; omega
  · rw [cCount_append, a2, b2]
  · intro d hd; rw [cCount_append, cCount_append, a3 d hd, b3 d hd]
  · rw [cCount_append, a4, b4]
  · intro h; rw [cCount_append, a5 h, b5 h]
  · intro h; rw [cCount_append, a6 h, b6 h]
  · intro e he
    rcases List.mem_append.mp he with hm | hm
    · exact a7 e hm
    · exact b7 e hm

theorem errs_single {e : Ev φ} {st : Int} (h : errishOf e = some st) : Errs [e] st := by
  constructor
  · exact firstErrish_cons_some [] h
  · rw [postErr_cons_some [] h]
    intro x hx; cases hx

theorem clean_releaseTr (sb : Sbuf) : Clean (releaseTr (φ := φ) sb) := by
  unfold releaseTr
  cases sb.disc <;> simp [Clean, firstErrish, errishOf]

theorem cleanup_releaseTr (sb : Sbuf) : ∀ e ∈ releaseTr (φ := φ) sb, isCleanup e := by
  unfold releaseTr
  cases sb.disc <;> simp [isCleanup]

theorem cCount_releaseTr (g : Ev φ → Nat) (sb : Sbuf) (hg : g (.rel sb) = 0) :
    cCount g (releaseTr (φ := φ) sb) = 0 := by
  rcases hdisc : sb.disc with _ | fid | ⟨fid, clo⟩ <;>
    simp [releaseTr, hdisc, cCount, hg]

theorem cRel_releaseTr (sb : Sbuf) (d : Discipline) (hd : d ≠ Discipline.noRelease) :
    cCount (evRel d) (releaseTr (φ := φ) sb) = if sb.disc = d then 1 else 0 := by
  unfold releaseTr
  by_cases hno : sb.disc = Discipline.noRelease
  · rw [if_pos hno, hno, if_neg (fun h => hd h.symm)]
    simp [cCount]
  · rw [if_neg hno]
    simp [cCount, evRel]

theorem cRelNo_releaseTr (sb : Sbuf) :
    cCount (evRel Discipline.noRelease) (releaseTr (φ := φ) sb) = 0 := by
  rcases hdisc : sb.disc with _ | fid | ⟨fid, clo⟩ <;>
    simp [releaseTr, hdisc, cCount, evRel]

theorem fileOk_releaseTr (file : φ) (sb : Sbuf) :
    ∀ e ∈ releaseTr (φ := φ) sb, fileOkEv file e := by
  rcases hdisc : sb.disc with _ | fid | ⟨fid, clo⟩ <;>
    simp [releaseTr, hdisc, fileOkEv]

theorem writeOut_spec (itf : Itf σ φ) (file : φ) (s : σ) (bytes : List Char)
    (escape : Bool) :
    Bal itf file 0 (writeOut itf file s bytes escape).2.1 ∧
    ((writeOut itf file s bytes escape).2.2 < 0 →
      Errs (writeOut itf file s bytes escape).2.1 (writeOut itf file s bytes escape).2.2) ∧
    (0 ≤ (writeOut itf file s bytes escape).2.2 →
      Clean (writeOut itf file s bytes escape).2.1) := by
  by_cases hb : bytes = []
  · have hw : writeOut itf file s bytes escape = (s, [], 0) := by
      unfold writeOut; rw [if_pos hb]
    rw [hw]
    simp [bal_nil, Clean, firstErrish]
  · cases he : itf.emit with
    | none =>
      have hw : writeOut itf file s bytes escape =
          (s, [.fwr (if escape then escapeL bytes else bytes)], 0) := by
        unfold writeOut; rw [if_neg hb, he]
      rw [hw]
      simp [Bal, cCount, evLeave, evEnterPos, evStop, evRel, evAcq, evEmitE, evFwr,
        fileOkEv, Clean, firstErrish, errishOf, he]
    | some e =>
      have hw : writeOut itf file s bytes escape =
          ((e s bytes escape file).1, [.emitE bytes escape file (e s bytes escape file).2],
            (e s bytes escape file).2) := by
        unfold writeOut; rw [if_neg hb, he]
      rw [hw]
      dsimp only
      refine ⟨?_, ?_, ?_⟩
      · simp [Bal, cCount, evLeave, evEnterPos, evStop, evRel, evAcq, evEmitE,
          evFwr, fileOkEv, he]
      · intro hst
        exact errs_single (by simp [errishOf, hst])
      · intro hst
        unfold Clean
        rw [firstErrish_cons_none [] (by simp [errishOf]; omega)]
        rfl

theorem emitValue_spec (itf : Itf σ φ) (file : φ) (s : σ) (name : List Char)
    (escape : Bool) :
    Bal itf file 0 (emitValue itf file s name escape).2.1 ∧
    ((emitValue itf file s name escape).2.2 < 0 →
      Errs (emitValue itf file s name escape).2.1 (emitValue itf file s name escape).2.2) ∧
    (0 ≤ (emitValue itf file s name escape).2.2 →
      Clean (emitValue itf file s name escape).2.1) := by
  cases hg : itf.get with
  | some g =>
    by_cases hrc : (g s name).2.1 < 0
    · have hw : emitValue itf file s name escape =
          ((g s name).1, [.getE name (g s name).2.1 (g s name).2.2], (g s name).2.1) := by
        unfold emitValue; rw [hg]; simp only [if_pos hrc]
      rw [hw]
      dsimp only
      refine ⟨?_, ?_, ?_⟩
      · refine ⟨by simp [cCount, evLeave, evEnterPos], by simp [cCount, evStop], ?_,
          by simp [cCount, evRel], by simp [cCount, evEmitE], by simp [cCount, evFwr], ?_⟩
        · intro d hd
          simp only [cCount, evRel, evAcq]
          rw [if_neg]
          rintro ⟨h0, _⟩
          omega
        · intro e he
          rcases List.mem_cons.mp he with rfl | hm
          · simp [fileOkEv]
          · cases hm
      · intro _
        exact errs_single (by simp [errishOf, hrc])
      · intro hst; omega
    · have hw : emitValue itf file s name escape =
          ((writeOut itf file (g s name).1 (g s name).2.2.value escape).1,
            .getE name (g s name).2.1 (g s name).2.2 ::
              ((writeOut itf file (g s name).1 (g s name).2.2.value escape).2.1 ++
                releaseTr (g s name).2.2),
            (writeOut itf file (g s name).1 (g s name).2.2.value escape).2.2) := by
        unfold emitValue; rw [hg]; simp only [if_neg hrc]
      rw [hw]
      dsimp only
      obtain ⟨wb, we, wc⟩ := writeOut_spec itf file (g s name).1 (g s name).2.2.value escape
      obtain ⟨b1, b2, b3, b4, b5, b6, b7⟩ := wb
      have hgn : errishOf (φ := φ) (.getE name (g s name).2.1 (g s name).2.2) = none := by
        simp [errishOf]; omega
      refine ⟨?_, ?_, ?_⟩
      · refine ⟨?_, ?_, ?_, ?_, ?_, ?_, ?_⟩
        · have h1 := cCount_releaseTr (φ := φ) evLeave (g s name).2.2 rfl
          have h2 := cCount_releaseTr (φ := φ) evEnterPos (g s name).2.2 rfl
          simp only [cCount, evLeave, evEnterPos, cCount_append, h1, h2, b1]
          omega
        · have h1 := cCount_releaseTr (φ := φ) evStop (g s name).2.2 rfl
          simp only [cCount, evStop, cCount_append, h1, b2]
        · intro d hd
          have h3 := b3 d hd
          have hr := cRel_releaseTr (φ := φ) (g s name).2.2 d hd
          have ha := cCount_releaseTr (φ := φ) (evAcq d) (g s name).2.2 rfl
          have h0 : (0 : Int) ≤ (g s name).2.1 := by omega
          simp only [cCount, evRel, evAcq, cCount_append, h3, hr, ha, h0, true_and]
          by_cases hdq : (g s name).2.2.disc = d <;> simp [hdq] <;> omega
        · have hr := cRelNo_releaseTr (φ := φ) (g s name).2.2
          simp only [cCount, evRel, cCount_append, hr, b4]
        · intro h
          have h1 := cCount_releaseTr (φ := φ) evEmitE (g s name).2.2 rfl
          simp only [cCount, cCount_append, evEmitE, b5 h, h1]
        · intro h
          have h1 := cCount_releaseTr (φ := φ) evFwr (g s name).2.2 rfl
          simp only [cCount, cCount_append, evFwr, b6 h, h1]
        · intro e he
          rcases List.mem_cons.mp he with rfl | hm
          · simp [fileOkEv]
          · rcases List.mem_append.mp hm with hm2 | hm2
            · exact b7 e hm2
            · exact fileOk_releaseTr file _ e hm2
      · intro hst
        obtain ⟨f1, f2⟩ := we hst
        constructor
        · rw [firstErrish_cons_none _ hgn]
          exact firstErrish_append_some _ f1
        · rw [postErr_cons_none _ hgn, postErr_append_some _ f1]
          intro x hx
          rcases List.mem_append.mp hx with hm | hm
          · exact f2 x hm
          · exact cleanup_releaseTr _ x hm
      · intro hst
        unfold Clean
        rw [firstErrish_cons_none _ hgn]
        exact clean_append (wc hst) (clean_releaseTr _)
  | none =>
    cases hp : itf.put with
    | some p =>
      have hw : emitValue itf file s name escape =
          ((p s name escape file).1, [.putE name escape file (p s name escape file).2],
            (p s name escape file).2) := by
        unfold emitValue; rw [hg, hp]
      rw [hw]
      dsimp only
      refine ⟨?_, ?_, ?_⟩
      · simp [Bal, cCount, evLeave, evEnterPos, evStop, evRel, evAcq, evEmitE,
          evFwr, fileOkEv]
      · intro hst
        exact errs_single (by simp [errishOf, hst])
      · intro hst
        unfold Clean
        rw [firstErrish_cons_none [] (by simp [errishOf]; omega)]
        rfl
    | none =>
      have hw : emitValue itf file s name escape =
          (s, [.err MUSTACH_ERROR_INVALID_ITF], MUSTACH_ERROR_INVALID_ITF) := by
        unfold emitValue; rw [hg, hp]
      rw [hw]
      refine ⟨?_, ?_, ?_⟩
      · simp [Bal, cCount, evLeave, evEnterPos, evStop, evRel, evAcq, evEmitE,
          evFwr, fileOkEv]
      · intro _
        exact errs_single (by simp [errishOf])
      · intro hst; simp [MUSTACH_ERROR_INVALID_ITF] at hst

theorem skip_errS_neg {f : Nat} {t : List Char} {dl : Delim} {nm : List Char}
    {lvl : Nat} {c : Int} (h : skip f t dl nm lvl = .errS c) : c < 0 := by
  induction f generalizing t dl lvl with
  | zero => simp [skip] at h
  | succ f ih =>
    unfold skip at h
    rcases h1 : findSplit dl.1 t with _ | pr
    · simp only [h1] at h
      injection h with h2
      rw [← h2]; decide
    · simp only [h1] at h
      rcases h2 : findSplit dl.2 pr.2 with _ | q
      · simp only [h2] at h
        injection h with h3
        rw [← h3]; decide
      · simp only [h2] at h
        rcases h3 : q.1 with _ | ⟨c0, tl⟩
        · simp only [h3] at h
          injection h with h4
          rw [← h4]; decide
        · simp only [h3] at h
          by_cases hc1 : c0 = '='
          · rw [if_pos hc1] at h
            rcases h4 : parseDelim tl with _ | dl2
            · simp only [h4] at h
              injection h with h5
              rw [← h5]; decide
            · simp only [h4] at h
              exact ih h
          · rw [if_neg hc1] at h
            by_cases hc2 : c0 = '#' ∨ c0 = '^'
            · rw [if_pos hc2] at h
              exact ih h
            · rw [if_neg hc2] at h
              by_cases hc3 : c0 = '/'
              · rw [if_pos hc3] at h
                by_cases hl : lvl = 0
                · rw [if_pos hl] at h
                  by_cases hn : tl = nm
                  · rw [if_pos hn] at h; cases h
                  · rw [if_neg hn] at h
                    injection h with h5
                    rw [← h5]; decide
                · rw [if_neg hl] at h
                  exact ih h
              · rw [if_neg hc3] at h
                exact ih h

theorem postErr_cons_isSome (e : Ev φ) (tr : List (Ev φ)) (h : errishOf e ≠ none) :
    postErr (e :: tr) = tr := by
  rcases hv : errishOf e with _ | v
  · exact absurd hv h
  · exact postErr_cons_some tr hv

theorem nextLoop_spec (itf : Itf σ φ) (file : φ) (nx lv : σ → σ × Int) :
    ∀ (f : Nat) (s : σ), InvN itf file (nextLoop (φ := φ) nx lv f s) := by
  intro f
  induction f with
  | zero => intro s; simp [nextLoop, InvN]
  | succ f ih =>
    intro s
    unfold nextLoop
    by_cases h1 : (nx s).2 < 0
    · rw [if_pos h1]
      dsimp only [InvN]
      refine ⟨?_, ?_, ?_⟩
      · simp [Bal, cCount, evLeave, evEnterPos, evStop, evRel, evAcq, evEmitE,
          evFwr, fileOkEv]
      · intro _
        constructor
        · refine firstErrish_cons_some _ ?_
          simp [errishOf, h1]
        · rw [postErr_cons_isSome _ _ (by simp [errishOf, h1])]
          simp [isCleanup]
      · intro hst; omega
    · rw [if_neg h1]
      by_cases h2 : (nx s).2 = 0
      · rw [if_pos h2]
        dsimp only [InvN]
        refine ⟨?_, ?_, ?_⟩
        · simp [Bal, cCount, evLeave, evEnterPos, evStop, evRel, evAcq, evEmitE,
            evFwr, fileOkEv]
        · intro hst
          have hl : (lv (nx s).1).2 < 0 := by
            by_contra hc
            rw [if_neg hc] at hst
            omega
          rw [if_pos hl]
          constructor
          · rw [firstErrish_cons_none _ (by simp [errishOf, h2])]
            refine firstErrish_cons_some _ ?_
            simp [errishOf, hl]
          · rw [postErr_cons_none _ (by simp [errishOf, h2]),
              postErr_cons_isSome _ _ (by simp [errishOf, hl])]
            simp
        · intro hst
          have hl : ¬ (lv (nx s).1).2 < 0 := by
            by_cases hc : (lv (nx s).1).2 < 0
            · rw [if_pos hc] at hst; omega
            · exact hc
          unfold Clean
          rw [firstErrish_cons_none _ (by simp [errishOf, h2]),
            firstErrish_cons_none _ (by simp [errishOf]; omega)]
          rfl
      · rw [if_neg h2]
        rcases hr : nextLoop (φ := φ) nx lv f (nx s).1 with _ | r
        · simp [InvN]
        · have hi := ih (nx s).1
          rw [hr] at hi
          obtain ⟨ib, ie, ic⟩ := hi
          dsimp only [InvN]
          have hnn : errishOf (φ := φ) (.nextE (nx s).2) = none := by
            simp [errishOf]; omega
          refine ⟨?_, ?_, ?_⟩
          · have hb0 : Bal itf file 0 [Ev.nextE (φ := φ) (nx s).2] := by
              simp [Bal, cCount, evLeave, evEnterPos, evStop, evRel, evAcq,
                evEmitE, evFwr, fileOkEv]
            have hcons := bal_append hb0 ib
            simpa using hcons
          · intro hst
            constructor
            · rw [firstErrish_cons_none _ hnn]
              exact (ie hst).1
            · rw [postErr_cons_none _ hnn]
              exact (ie hst).2
          · intro hst
            unfold Clean
            rw [firstErrish_cons_none _ hnn]
            exact ic hst

theorem iterLoop_spec (itf : Itf σ φ) (file : φ) (nx lv : σ → σ × Int)
    (body : Delim → σ → Out σ φ) (hbody : ∀ dl s, InvO itf file (body dl s)) :
    ∀ (f : Nat) (dl : Delim) (s : σ), InvL itf file (iterLoop nx lv body f dl s) := by
  intro f
  induction f with
  | zero => intro dl s; simp [iterLoop, InvL]
  | succ f ih =>
    intro dl s
    unfold iterLoop
    rcases hb : body dl s with _ | ⟨s1, tr1, st1, rest1, dl1⟩
    · simp [InvL]
    · have hio := hbody dl s
      rw [hb] at hio
      obtain ⟨bb, be, bc⟩ := hio
      dsimp only
      by_cases h1 : st1 < 0
      · rw [if_pos h1]
        dsimp only [InvL]
        refine ⟨?_, ?_, ?_⟩
        · have hb1 : Bal itf file 1 [Ev.leaveE (φ := φ) (lv s1).2] := by
            simp [Bal, cCount, evLeave, evEnterPos, evStop, evRel, evAcq, evEmitE,
              evFwr, fileOkEv]
          simpa using bal_append bb hb1
        · intro _
          exact errs_append_left (be h1) (by simp [isCleanup])
        · intro hst; omega
      · rw [if_neg h1]
        by_cases h2 : (nx s1).2 < 0
        · rw [if_pos h2]
          dsimp only [InvL]
          refine ⟨?_, ?_, ?_⟩
          · have hb1 : Bal itf file 1
                [Ev.nextE (φ := φ) (nx s1).2, Ev.leaveE (lv (nx s1).1).2] := by
              simp [Bal, cCount, evLeave, evEnterPos, evStop, evRel, evAcq, evEmitE,
                evFwr, fileOkEv]
            simpa using bal_append bb hb1
          · intro _
            refine errs_append_right (bc (by omega)) ?_
            constructor
            · refine firstErrish_cons_some _ ?_
              simp [errishOf, h2]
            · rw [postErr_cons_isSome _ _ (by simp [errishOf, h2])]
              simp [isCleanup]
          · intro hst; omega
        · rw [if_neg h2]
          by_cases h3 : (nx s1).2 = 0
          · rw [if_pos h3]
            dsimp only [InvL]
            refine ⟨?_, ?_, ?_⟩
            · have hb1 : Bal itf file 1
                  [Ev.nextE (φ := φ) (nx s1).2, Ev.leaveE (lv (nx s1).1).2] := by
                simp [Bal, cCount, evLeave, evEnterPos, evStop, evRel, evAcq, evEmitE,
                  evFwr, fileOkEv]
              simpa using bal_append bb hb1
            · intro hst
              have hl : (lv (nx s1).1).2 < 0 := by
                by_cases hc : (lv (nx s1).1).2 < 0
                · exact hc
                · rw [if_neg hc] at hst; omega
              rw [if_pos hl]
              refine errs_append_right (bc (by omega)) ?_
              constructor
              · rw [firstErrish_cons_none _ (by simp [errishOf, h3])]
                refine firstErrish_cons_some _ ?_
                simp [errishOf, hl]
              · rw [postErr_cons_none _ (by simp [errishOf, h3]),
                  postErr_cons_isSome _ _ (by simp [errishOf, hl])]
                simp
            · intro hst
              have hl : ¬ (lv (nx s1).1).2 < 0 := by
                by_cases hc : (lv (nx s1).1).2 < 0
                · rw [if_pos hc] at hst; omega
                · exact hc
              refine clean_append (bc (by omega)) ?_
              unfold Clean
              rw [firstErrish_cons_none _ (by simp [errishOf, h3]),
                firstErrish_cons_none _ (by simp [errishOf]; omega)]
              rfl
          · rw [if_neg h3]
            rcases hr : iterLoop nx lv body f dl1 (nx s1).1 with _ | ⟨s3, tr3, st3, rest3, dl3⟩
            · simp [InvL]
            · have hi := ih dl1 (nx s1).1
              rw [hr] at hi
              obtain ⟨ib, ie, ic⟩ := hi
              dsimp only [InvL]
              have hnn : errishOf (φ := φ) (.nextE (nx s1).2) = none := by
                simp [errishOf]; omega
              refine ⟨?_, ?_, ?_⟩
              · have hb0 : Bal itf file 0 [Ev.nextE (φ := φ) (nx s1).2] := by
                  simp [Bal, cCount, evLeave, evEnterPos, evStop, evRel, evAcq,
                    evEmitE, evFwr, fileOkEv]
                have hall := bal_append bb (bal_append hb0 ib)
                simpa using hall
              · intro hst
                refine errs_append_right (bc (by omega)) ?_
                constructor
                · rw [firstErrish_cons_none _ hnn]
                  exact (ie hst).1
                · rw [postErr_cons_none _ hnn]
                  exact (ie hst).2
              · intro hst
                refine clean_append (bc (by omega)) ?_
                unfold Clean
                rw [firstErrish_cons_none _ hnn]
                exact ic hst

theorem bal_enter_loop (itf : Itf σ φ) (file : φ) (name : List Char) {erc : Int}
    (herc : 0 < erc) {tr : List (Ev φ)} (h : Bal itf file 1 tr) :
    Bal itf file 0 (Ev.enterE name erc :: tr) := by
  obtain ⟨h1, h2, h3, h4, h5, h6, h7⟩ := h
  refine ⟨?_, ?_, ?_, ?_, ?_, ?_, ?_⟩
  · simp only [cCount, evLeave, evEnterPos, if_pos herc]
    omega
  · simpa [cCount, evStop] using h2
  · intro d hd
    simpa [cCount, evRel, evAcq] using h3 d hd
  · simpa [cCount, evRel] using h4
  · intro hh
    simpa [cCount, evEmitE] using h5 hh
  · intro hh
    simpa [cCount, evFwr] using h6 hh
  · intro e he
    rcases List.mem_cons.mp he with rfl | hm
    · simp [fileOkEv]
    · exact h7 e hm

theorem bal_sbuf_use (itf : Itf σ φ) (file : φ) (e0 : Ev φ) (sb : Sbuf)
    {tr2 : List (Ev φ)} (hb : Bal itf file 0 tr2)
    (hacq : ∀ d, evAcq d e0 = if sb.disc = d then 1 else 0)
    (hlv : evLeave e0 = 0) (hep : evEnterPos e0 = 0) (hsp : evStop e0 = 0)
    (hrl : ∀ d, evRel d e0 = 0) (hem : evEmitE e0 = 0) (hfw : evFwr e0 = 0)
    (hfile : fileOkEv file e0) :
    Bal itf file 0 (e0 :: (tr2 ++ releaseTr sb)) := by
  obtain ⟨h1, h2, h3, h4, h5, h6, h7⟩ := hb
  refine ⟨?_, ?_, ?_, ?_, ?_, ?_, ?_⟩
  · have hx := cCount_releaseTr (φ := φ) evLeave sb rfl
    have hy := cCount_releaseTr (φ := φ) evEnterPos sb rfl
    simp only [cCount, cCount_append, hlv, hep, hx, hy, h1]
    omega
  · have hx := cCount_releaseTr (φ := φ) evStop sb rfl
    simp only [cCount, cCount_append, hsp, hx, h2]
  · intro d hd
    have hx := cRel_releaseTr (φ := φ) sb d hd
    have hy := cCount_releaseTr (φ := φ) (evAcq d) sb rfl
    simp only [cCount, cCount_append, hrl d, hacq d, h3 d hd, hx, hy]
    omega
  · have hx := cRelNo_releaseTr (φ := φ) sb
    simp only [cCount, cCount_append, hrl Discipline.noRelease, hx, h4]
  · intro hh
    have hx := cCount_releaseTr (φ := φ) evEmitE sb rfl
    simp only [cCount, cCount_append, hem, hx, h5 hh]
  · intro hh
    have hx := cCount_releaseTr (φ := φ) evFwr sb rfl
    simp only [cCount, cCount_append, hfw, hx, h6 hh]
  · intro e he
    rcases List.mem_cons.mp he with rfl | hm
    · exact hfile
    · rcases List.mem_append.mp hm with hm2 | hm2
      · exact h7 e hm2
      · exact fileOk_releaseTr file sb e hm2

theorem varTag_spec (itf : Itf σ φ) (file : φ) (pre : List (Ev φ)) (s : σ)
    (name : List Char) (escape : Bool) (dl : Delim) (k : σ → Out σ φ)
    (hpre : Bal itf file 0 pre) (hprec : Clean pre)
    (hk : ∀ s2, InvO itf file (k s2)) :
    InvO itf file (varTag itf file pre s name escape dl k) := by
  unfold varTag
  obtain ⟨eb, ee, ec⟩ := emitValue_spec itf file s name escape
  by_cases h1 : (emitValue itf file s name escape).2.2 < 0
  · rw [if_pos h1]
    dsimp only [InvO]
    refine ⟨by simpa using bal_append hpre eb, ?_, ?_⟩
    · intro _
      exact errs_append_right hprec (ee h1)
    · intro hst; omega
  · rw [if_neg h1]
    rcases hk2 : k (emitValue itf file s name escape).1 with _ | ⟨s2, tr2, st2, rest2, dl2⟩
    · simp [Out.pre, InvO]
    · have hko := hk (emitValue itf file s name escape).1
      rw [hk2] at hko
      obtain ⟨kb, ke, kc⟩ := hko
      dsimp only [Out.pre, InvO]
      refine ⟨?_, ?_, ?_⟩
      · simpa using bal_append (bal_append hpre eb) kb
      · intro hst
        exact errs_append_right (clean_append hprec (ec (by omega))) (ke hst)
      · intro hst
        exact clean_append (clean_append hprec (ec (by omega))) (kc hst)

theorem outPre_spec (itf : Itf σ φ) (file : φ) (tr0 : List (Ev φ)) (o : Out σ φ)
    (h0 : Bal itf file 0 tr0) (hc : Clean tr0) (ho : InvO itf file o) :
    InvO itf file (Out.pre tr0 o) := by
  rcases o with _ | ⟨s, tr, st, rest, dl⟩
  · exact trivial
  · obtain ⟨b, e, c⟩ := ho
    dsimp only [Out.pre, InvO]
    exact ⟨by simpa using bal_append h0 b,
      fun h => errs_append_right hc (e h),
      fun h => clean_append hc (c h)⟩

theorem secTag_spec (itf : Itf σ φ) (file : φ) (pre : List (Ev φ))
    (en : σ → List Char → σ × Int) (nx lv : σ → σ × Int) (s : σ) (name : List Char)
    (dl : Delim) (depth : Nat) (inverted : Bool) (body : Delim → σ → Out σ φ)
    (skv : SkipR) (lf : Nat) (k : σ → List Char → Delim → Out σ φ)
    (hpre : Bal itf file 0 pre) (hprec : Clean pre)
    (hbody : ∀ dl2 s2, InvO itf file (body dl2 s2))
    (hskv : ∀ c, skv = .errS c → c < 0)
    (hk : ∀ s2 r2 d2, InvO itf file (k s2 r2 d2)) :
    InvO itf file (secTag pre en nx lv s name dl depth inverted body skv lf k) := by
  unfold secTag
  by_cases hd : MUSTACH_MAX_DEPTH ≤ depth
  · rw [if_pos hd]
    dsimp only [InvO]
    have hberr : Bal itf file 0 [Ev.err (φ := φ) MUSTACH_ERROR_TOO_DEEP] := by
      simp [Bal, cCount, evLeave, evEnterPos, evStop, evRel, evAcq, evEmitE,
        evFwr, fileOkEv]
    refine ⟨by simpa using bal_append hpre hberr, ?_, ?_⟩
    · intro _
      exact errs_append_right hprec (errs_single rfl)
    · intro hst
      exact absurd hst (by decide)
  · rw [if_neg hd]
    dsimp only
    by_cases he : (en s name).2 < 0
    · rw [if_pos he]
      dsimp only [InvO]
      have hn : ¬ (0 : Int) < (en s name).2 := by omega
      have hbe : Bal itf file 0 [Ev.enterE (φ := φ) name (en s name).2] := by
        simp [Bal, cCount, evLeave, evEnterPos, evStop, evRel, evAcq, evEmitE,
          evFwr, fileOkEv, hn]
      refine ⟨by simpa using bal_append hpre hbe, ?_, ?_⟩
      · intro _
        refine errs_append_right hprec (errs_single ?_)
        simp [errishOf, he]
      · intro hst; omega
    · rw [if_neg he]
      have hcent : Clean [Ev.enterE (φ := φ) name (en s name).2] := by
        unfold Clean
        rw [firstErrish_cons_none _ (by simp [errishOf]; omega)]
        rfl
      by_cases h0 : (en s name).2 = 0
      · rw [if_pos h0]
        have hn : ¬ (0 : Int) < (en s name).2 := by omega
        have hbe : Bal itf file 0 [Ev.enterE (φ := φ) name (en s name).2] := by
          simp [Bal, cCount, evLeave, evEnterPos, evStop, evRel, evAcq, evEmitE,
            evFwr, fileOkEv, hn]
        by_cases hi : inverted
        · rw [if_pos hi]
          rcases hb2 : body dl (en s name).1 with _ | ⟨s2, tr2, st2, rest2, dl2⟩
          · exact trivial
          · have hbo := hbody dl (en s name).1
            rw [hb2] at hbo
            obtain ⟨bb, be, bc⟩ := hbo
            dsimp only
            by_cases hs2 : st2 < 0
            · rw [if_pos hs2]
              dsimp only [InvO]
              refine ⟨?_, ?_, ?_⟩
              · simpa using bal_append (bal_append hpre hbe) bb
              · intro _
                exact errs_append_right (clean_append hprec hcent) (be hs2)
              · intro hst; omega
            · rw [if_neg hs2]
              exact outPre_spec itf file _ _
                (by simpa using bal_append (bal_append hpre hbe) bb)
                (clean_append (clean_append hprec hcent) (bc (by omega)))
                (hk s2 rest2 dl2)
        · rw [if_neg hi]
          rcases skv with _ | c | ⟨r2, d2⟩
          · exact trivial
          · have hc := hskv c rfl
            dsimp only [InvO]
            have hberr : Bal itf file 0 [Ev.err (φ := φ) c] := by
              simp [Bal, cCount, evLeave, evEnterPos, evStop, evRel, evAcq, evEmitE,
                evFwr, fileOkEv]
            refine ⟨?_, ?_, ?_⟩
            · simpa using bal_append (bal_append hpre hbe) hberr
            · intro _
              exact errs_append_right (clean_append hprec hcent) (errs_single rfl)
            · intro hst; omega
          · exact outPre_spec itf file _ _
              (by simpa using bal_append hpre hbe)
              (clean_append hprec hcent)
              (hk (en s name).1 r2 d2)
      · rw [if_neg h0]
        have herc : (0 : Int) < (en s name).2 := by omega
        by_cases hi : inverted
        · rw [if_pos hi]
          rcases hn2 : nextLoop (φ := φ) nx lv lf (en s name).1 with _ | r
          · exact trivial
          · have hns := nextLoop_spec itf file nx lv lf (en s name).1
            rw [hn2] at hns
            obtain ⟨ib, ie, ic⟩ := hns
            dsimp only
            by_cases hr2 : r.2.2 < 0
            · rw [if_pos hr2]
              dsimp only [InvO]
              refine ⟨?_, ?_, ?_⟩
              · simpa using bal_append hpre (bal_enter_loop itf file name herc ib)
              · intro _
                exact errs_append_right (clean_append hprec hcent) (ie hr2)
              · intro hst; omega
            · rw [if_neg hr2]
              rcases skv with _ | c | ⟨r2, d2⟩
              · exact trivial
              · have hc := hskv c rfl
                dsimp only [InvO]
                have hberr : Bal itf file 0 [Ev.err (φ := φ) c] := by
                  simp [Bal, cCount, evLeave, evEnterPos, evStop, evRel, evAcq,
                    evEmitE, evFwr, fileOkEv]
                refine ⟨?_, ?_, ?_⟩
                · simpa using
                    bal_append (bal_append hpre (bal_enter_loop itf file name herc ib)) hberr
                · intro _
                  refine errs_append_right ?_ (errs_single rfl)
                  exact clean_append (clean_append hprec hcent) (ic (by omega))
                · intro hst; omega
              · exact outPre_spec itf file _ _
                  (by simpa using bal_append hpre (bal_enter_loop itf file name herc ib))
                  (clean_append (clean_append hprec hcent) (ic (by omega)))
                  (hk r.1 r2 d2)
        · rw [if_neg hi]
          rcases hl2 : iterLoop nx lv body lf dl (en s name).1 with _ | ⟨s2, tr2, st2, rest2, dl2⟩
          · exact trivial
          · have hls := iterLoop_spec itf file nx lv body hbody lf dl (en s name).1
            rw [hl2] at hls
            obtain ⟨ib, ie, ic⟩ := hls
            dsimp only
            by_cases hs2 : st2 < 0
            · rw [if_pos hs2]
              dsimp only [InvO]
              refine ⟨?_, ?_, ?_⟩
              · simpa using bal_append hpre (bal_enter_loop itf file name herc ib)
              · intro _
                exact errs_append_right (clean_append hprec hcent) (ie hs2)
              · intro hst; omega
            · rw [if_neg hs2]
              exact outPre_spec itf file _ _
                (by simpa using bal_append hpre (bal_enter_loop itf file name herc ib))
                (clean_append (clean_append hprec hcent) (ic (by omega)))
                (hk s2 rest2 dl2)

theorem errs_cons_none {e : Ev φ} {tr : List (Ev φ)} {st : Int}
    (h : errishOf e = none) (ht : Errs tr st) : Errs (e :: tr) st := by
  obtain ⟨h1, h2⟩ := ht
  exact ⟨by rw [firstErrish_cons_none _ h]; exact h1,
    by rw [postErr_cons_none _ h]; exact h2⟩

theorem clean_cons_none {e : Ev φ} {tr : List (Ev φ)}
    (h : errishOf e = none) (ht : Clean tr) : Clean (e :: tr) := by
  unfold Clean
  rw [firstErrish_cons_none _ h]
  exact ht

theorem partTag_spec (itf : Itf σ φ) (file : φ) (pre : List (Ev φ)) (s : σ)
    (name : List Char) (dl : Delim) (depth : Nat)
    (rb : List Char → σ → Out σ φ) (k : σ → Out σ φ)
    (hpre : Bal itf file 0 pre) (hprec : Clean pre)
    (hrb : ∀ txt s2, InvO itf file (rb txt s2))
    (hk : ∀ s2, InvO itf file (k s2)) :
    InvO itf file (partTag itf file pre s name dl depth rb k) := by
  unfold partTag
  by_cases hd : MUSTACH_MAX_DEPTH ≤ depth
  · rw [if_pos hd]
    dsimp only [InvO]
    have hberr : Bal itf file 0 [Ev.err (φ := φ) MUSTACH_ERROR_TOO_DEEP] := by
      simp [Bal, cCount, evLeave, evEnterPos, evStop, evRel, evAcq, evEmitE,
        evFwr, fileOkEv]
    refine ⟨by simpa using bal_append hpre hberr, ?_, ?_⟩
    · intro _
      exact errs_append_right hprec (errs_single rfl)
    · intro hst
      exact absurd hst (by decide)
  · rw [if_neg hd]
    rcases hpc : itf.partialCb with _ | p
    · rcases hg : itf.get with _ | g
      · rcases hp : itf.put with _ | p
        · dsimp only [InvO]
          have hberr : Bal itf file 0 [Ev.err (φ := φ) MUSTACH_ERROR_INVALID_ITF] := by
            simp [Bal, cCount, evLeave, evEnterPos, evStop, evRel, evAcq, evEmitE,
              evFwr, fileOkEv]
          refine ⟨by simpa using bal_append hpre hberr, ?_, ?_⟩
          · intro _
            exact errs_append_right hprec (errs_single rfl)
          · intro hst
            exact absurd hst (by decide)
        · dsimp only
          by_cases hrc : (p s name false file).2 < 0
          · rw [if_pos hrc]
            dsimp only [InvO]
            have hb1 : Bal itf file 0 [Ev.putE name false file (p s name false file).2] := by
              simp [Bal, cCount, evLeave, evEnterPos, evStop, evRel, evAcq, evEmitE,
                evFwr, fileOkEv]
            refine ⟨by simpa using bal_append hpre hb1, ?_, ?_⟩
            · intro _
              refine errs_append_right hprec (errs_single ?_)
              simp [errishOf, hrc]
            · intro hst; omega
          · rw [if_neg hrc]
            have hb1 : Bal itf file 0 [Ev.putE name false file (p s name false file).2] := by
              simp [Bal, cCount, evLeave, evEnterPos, evStop, evRel, evAcq, evEmitE,
                evFwr, fileOkEv]
            have hc1 : Clean [Ev.putE name false file (p s name false file).2] := by
              unfold Clean
              rw [firstErrish_cons_none _ (by simp [errishOf]; omega)]
              rfl
            exact outPre_spec itf file _ _
              (by simpa using bal_append hpre hb1)
              (clean_append hprec hc1)
              (hk (p s name false file).1)
      · dsimp only
        by_cases hrc : (g s name).2.1 < 0
        · rw [if_pos hrc]
          dsimp only [InvO]
          have hb1 : Bal itf file 0 [Ev.getE (φ := φ) name (g s name).2.1 (g s name).2.2] := by
            refine ⟨by simp [cCount, evLeave, evEnterPos], by simp [cCount, evStop], ?_,
              by simp [cCount, evRel], by simp [cCount, evEmitE], by simp [cCount, evFwr], ?_⟩
            · intro d hd2
              simp only [cCount, evRel, evAcq]
              rw [if_neg]
              rintro ⟨h0x, _⟩
              omega
            · intro e he
              rcases List.mem_cons.mp he with rfl | hm
              · simp [fileOkEv]
              · cases hm
          refine ⟨by simpa using bal_append hpre hb1, ?_, ?_⟩
          · intro _
            refine errs_append_right hprec (errs_single ?_)
            simp [errishOf, hrc]
          · intro hst; omega
        · rw [if_neg hrc]
          rcases hb2 : rb (g s name).2.2.value (g s name).1 with _ | ⟨s2, tr2, st2, rest2, dl2⟩
          · exact trivial
          · have hro := hrb (g s name).2.2.value (g s name).1
            rw [hb2] at hro
            obtain ⟨bb, be, bc⟩ := hro
            dsimp only
            have hev : errishOf (φ := φ)
                (.getE name (g s name).2.1 (g s name).2.2) = none := by
              simp [errishOf]; omega
            have hbu : Bal itf file 0
                (Ev.getE name (g s name).2.1 (g s name).2.2 ::
                  (tr2 ++ releaseTr (g s name).2.2)) := by
              refine bal_sbuf_use itf file _ _ bb ?_ rfl rfl rfl (fun d => rfl) rfl rfl ?_
              · intro d
                simp [evAcq, (show (0 : Int) ≤ (g s name).2.1 by omega)]
              · simp [fileOkEv]
            by_cases hs2 : st2 < 0
            · rw [if_pos hs2]
              dsimp only [InvO]
              refine ⟨by simpa using bal_append hpre hbu, ?_, ?_⟩
              · intro _
                refine errs_append_right hprec ?_
                exact errs_cons_none hev (errs_append_left (be hs2) (cleanup_releaseTr _))
              · intro hst; omega
            · rw [if_neg hs2]
              exact outPre_spec itf file _ _
                (by simpa using bal_append hpre hbu)
                (clean_append hprec
                  (clean_cons_none hev (clean_append (bc (by omega)) (clean_releaseTr _))))
                (hk s2)
    · dsimp only
      by_cases hrc : (p s name).2.1 < 0
      · rw [if_pos hrc]
        dsimp only [InvO]
        have hb1 : Bal itf file 0 [Ev.partialE (φ := φ) name (p s name).2.1 (p s name).2.2] := by
          refine ⟨by simp [cCount, evLeave, evEnterPos], by simp [cCount, evStop], ?_,
            by simp [cCount, evRel], by simp [cCount, evEmitE], by simp [cCount, evFwr], ?_⟩
          · intro d hd2
            simp only [cCount, evRel, evAcq]
            rw [if_neg]
            rintro ⟨h0x, _⟩
            omega
          · intro e he
            rcases List.mem_cons.mp he with rfl | hm
            · simp [fileOkEv]
            · cases hm
        refine ⟨by simpa using bal_append hpre hb1, ?_, ?_⟩
        · intro _
          refine errs_append_right hprec (errs_single ?_)
          simp [errishOf, hrc]
        · intro hst; omega
      · rw [if_neg hrc]
        rcases hb2 : rb (p s name).2.2.value (p s name).1 with _ | ⟨s2, tr2, st2, rest2, dl2⟩
        · exact trivial
        · have hro := hrb (p s name).2.2.value (p s name).1
          rw [hb2] at hro
          obtain ⟨bb, be, bc⟩ := hro
          dsimp only
          have hev : errishOf (φ := φ)
              (.partialE name (p s name).2.1 (p s name).2.2) = none := by
            simp [errishOf]; omega
          have hbu : Bal itf file 0
              (Ev.partialE name (p s name).2.1 (p s name).2.2 ::
                (tr2 ++ releaseTr (p s name).2.2)) := by
            refine bal_sbuf_use itf file _ _ bb ?_ rfl rfl rfl (fun d => rfl) rfl rfl ?_
            · intro d
              simp [evAcq, (show (0 : Int) ≤ (p s name).2.1 by omega)]
            · simp [fileOkEv]
          by_cases hs2 : st2 < 0
          · rw [if_pos hs2]
            dsimp only [InvO]
            refine ⟨by simpa using bal_append hpre hbu, ?_, ?_⟩
            · intro _
              refine errs_append_right hprec ?_
              exact errs_cons_none hev (errs_append_left (be hs2) (cleanup_releaseTr _))
            · intro hst; omega
          · rw [if_neg hs2]
            exact outPre_spec itf file _ _
              (by simpa using bal_append hpre hbu)
              (clean_append hprec
                (clean_cons_none hev (clean_append (bc (by omega)) (clean_releaseTr _))))
              (hk s2)

theorem errLeaf_spec (itf : Itf σ φ) (file : φ) (s : σ) (tr0 : List (Ev φ))
    (c : Int) (rest : List Char) (dl : Delim)
    (hb : Bal itf file 0 tr0) (hc : Clean tr0) (hneg : c < 0) :
    InvO itf file (Out.done s (tr0 ++ [Ev.err c]) c rest dl) := by
  dsimp only [InvO]
  have hberr : Bal itf file 0 [Ev.err (φ := φ) c] := by
    simp [Bal, cCount, evLeave, evEnterPos, evStop, evRel, evAcq, evEmitE,
      evFwr, fileOkEv]
  exact ⟨by simpa using bal_append hb hberr,
    fun _ => errs_append_right hc (errs_single rfl),
    fun hst => absurd hst (by omega)⟩

theorem okLeaf_spec (itf : Itf σ φ) (file : φ) (s : σ) (tr0 : List (Ev φ))
    (rest : List Char) (dl : Delim)
    (hb : Bal itf file 0 tr0) (hc : Clean tr0) :
    InvO itf file (Out.done s tr0 0 rest dl) := by
  dsimp only [InvO]
  exact ⟨hb, fun h => absurd h (by omega), fun _ => hc⟩

theorem process_spec (itf : Itf σ φ) (en : σ → List Char → σ × Int)
    (nx lv : σ → σ × Int) (file : φ) :
    ∀ (f : Nat) (s : σ) (t : List Char) (dl : Delim) (cls : Option (List Char))
      (depth : Nat), InvO itf file (process itf en nx lv file f s t dl cls depth) := by
  intro f
  induction f with
  | zero => intro s t dl cls depth; exact trivial
  | succ f ih =>
    intro s t dl cls depth
    unfold process
    rcases h1 : findSplit dl.1 t with _ | pr
    · dsimp only
      obtain ⟨wb, we, wc⟩ := writeOut_spec itf file s t false
      by_cases hw : (writeOut itf file s t false).2.2 < 0
      · rw [if_pos hw]
        exact ⟨wb, fun _ => we hw, fun hst => by omega⟩
      · rw [if_neg hw]
        rcases cls with _ | nm
        · dsimp only [InvO]
          exact ⟨wb, fun h => absurd h (by omega), fun _ => wc (by omega)⟩
        · dsimp only
          exact errLeaf_spec itf file _ _ _ _ _ wb (wc (by omega)) (by decide)
    · dsimp only
      obtain ⟨wb, we, wc⟩ := writeOut_spec itf file s pr.1 false
      by_cases hw : (writeOut itf file s pr.1 false).2.2 < 0
      · rw [if_pos hw]
        exact ⟨wb, fun _ => we hw, fun hst => by omega⟩
      · rw [if_neg hw]
        have hwc : Clean (writeOut itf file s pr.1 false).2.1 := wc (by omega)
        rcases h2 : findSplit dl.2 pr.2 with _ | q
        · dsimp only
          exact errLeaf_spec itf file _ _ _ _ _ wb hwc (by decide)
        · dsimp only
          rcases h3 : q.1 with _ | ⟨c, tl⟩
          · dsimp only
            exact errLeaf_spec itf file _ _ _ _ _ wb hwc (by decide)
          · dsimp only
            by_cases hc1 : c = '!'
            · rw [if_pos hc1]
              exact outPre_spec itf file _ _ wb hwc (ih _ _ _ _ _)
            · rw [if_neg hc1]
              by_cases hc2 : c = '='
              · rw [if_pos hc2]
                rcases h4 : parseDelim tl with _ | dl2
                · dsimp only
                  exact errLeaf_spec itf file _ _ _ _ _ wb hwc (by decide)
                · dsimp only
                  exact outPre_spec itf file _ _ wb hwc (ih _ _ _ _ _)
              · rw [if_neg hc2]
                by_cases hc3 : c = '{'
                · rw [if_pos hc3]
                  rcases h5 : unbrace tl q.2 with _ | nr
                  · dsimp only
                    exact errLeaf_spec itf file _ _ _ _ _ wb hwc (by decide)
                  · dsimp only
                    by_cases h6 : nr.1 = []
                    · rw [if_pos h6]
                      exact errLeaf_spec itf file _ _ _ _ _ wb hwc (by decide)
                    · rw [if_neg h6]
                      by_cases h7 : MUSTACH_MAX_LENGTH < nr.1.length
                      · rw [if_pos h7]
                        exact errLeaf_spec itf file _ _ _ _ _ wb hwc (by decide)
                      · rw [if_neg h7]
                        exact varTag_spec itf file _ _ _ _ _ _ wb hwc
                          (fun s2 => ih _ _ _ _ _)
                · rw [if_neg hc3]
                  by_cases hc4 : c = '&'
                  · rw [if_pos hc4]
                    by_cases h6 : tl = []
                    · rw [if_pos h6]
                      exact errLeaf_spec itf file _ _ _ _ _ wb hwc (by decide)
                    · rw [if_neg h6]
                      by_cases h7 : MUSTACH_MAX_LENGTH < tl.length
                      · rw [if_pos h7]
                        exact errLeaf_spec itf file _ _ _ _ _ wb hwc (by decide)
                      · rw [if_neg h7]
                        exact varTag_spec itf file _ _ _ _ _ _ wb hwc
                          (fun s2 => ih _ _ _ _ _)
                  · rw [if_neg hc4]
                    by_cases hc5 : c = '#' ∨ c = '^'
                    · rw [if_pos hc5]
                      by_cases h6 : tl = []
                      · rw [if_pos h6]
                        exact errLeaf_spec itf file _ _ _ _ _ wb hwc (by decide)
                      · rw [if_neg h6]
                        by_cases h7 : MUSTACH_MAX_LENGTH < tl.length
                        · rw [if_pos h7]
                          exact errLeaf_spec itf file _ _ _ _ _ wb hwc (by decide)
                        · rw [if_neg h7]
                          apply secTag_spec
                          · exact wb
                          · exact hwc
                          · exact fun dl2 s2 => ih _ _ _ _ _
                          · exact fun c2 h => skip_errS_neg h
                          · exact fun s2 r2 d2 => ih _ _ _ _ _
                    · rw [if_neg hc5]
                      by_cases hc6 : c = '/'
                      · rw [if_pos hc6]
                        rcases cls with _ | nm
                        · dsimp only
                          exact errLeaf_spec itf file _ _ _ _ _ wb hwc (by decide)
                        · dsimp only
                          by_cases h6 : tl = nm
                          · rw [if_pos h6]
                            exact okLeaf_spec itf file _ _ _ _ wb hwc
                          · rw [if_neg h6]
                            exact errLeaf_spec itf file _ _ _ _ _ wb hwc (by decide)
                      · rw [if_neg hc6]
                        by_cases hc7 : c = '>'
                        · rw [if_pos hc7]
                          by_cases h6 : tl = []
                          · rw [if_pos h6]
                            exact errLeaf_spec itf file _ _ _ _ _ wb hwc (by decide)
                          · rw [if_neg h6]
                            by_cases h7 : MUSTACH_MAX_LENGTH < tl.length
                            · rw [if_pos h7]
                              exact errLeaf_spec itf file _ _ _ _ _ wb hwc (by decide)
                            · rw [if_neg h7]
                              exact partTag_spec itf file _ _ _ _ _ _ _ wb hwc
                                (fun txt s2 => ih _ _ _ _ _)
                                (fun s2 => ih _ _ _ _ _)
                        · rw [if_neg hc7]
                          by_cases h7 : MUSTACH_MAX_LENGTH < (c :: tl).length
                          · rw [if_pos h7]
                            exact errLeaf_spec itf file _ _ _ _ _ wb hwc (by decide)
                          · rw [if_neg h7]
                            exact varTag_spec itf file _ _ _ _ _ _ wb hwc
                              (fun s2 => ih _ _ _ _ _)

theorem finish_spec (itf : Itf σ φ) (file : φ) (s : σ) (tr1 : List (Ev φ)) (st : Int)
    (h1 : cCount evLeave tr1 = cCount evEnterPos tr1)
    (h2 : ∀ d, d ≠ Discipline.noRelease → cCount (evRel d) tr1 = cCount (evAcq d) tr1)
    (h3 : cCount (evRel Discipline.noRelease) tr1 = 0)
    (h4 : itf.emit = none → cCount evEmitE tr1 = 0)
    (h5 : itf.emit.isSome → cCount evFwr tr1 = 0)
    (h6 : ∀ e ∈ tr1, fileOkEv file e)
    (h7 : st < 0 → Errs tr1 st)
    (h8 : 0 ≤ st → Clean tr1)
    (h9 : cCount evStop tr1 = 0) :
    cCount evLeave (finish itf s tr1 st).2.1 = cCount evEnterPos (finish itf s tr1 st).2.1 ∧
    (∀ d, d ≠ Discipline.noRelease →
      cCount (evRel d) (finish itf s tr1 st).2.1 = cCount (evAcq d) (finish itf s tr1 st).2.1) ∧
    cCount (evRel Discipline.noRelease) (finish itf s tr1 st).2.1 = 0 ∧
    (itf.emit = none → cCount evEmitE (finish itf s tr1 st).2.1 = 0) ∧
    (itf.emit.isSome → cCount evFwr (finish itf s tr1 st).2.1 = 0) ∧
    (∀ e ∈ (finish itf s tr1 st).2.1, fileOkEv file e) ∧
    ((finish itf s tr1 st).2.2 < 0 → Errs (finish itf s tr1 st).2.1 (finish itf s tr1 st).2.2) ∧
    (0 ≤ (finish itf s tr1 st).2.2 → Clean (finish itf s tr1 st).2.1) ∧
    (itf.stop = none → cCount evStop (finish itf s tr1 st).2.1 = 0) ∧
    (∀ sp, itf.stop = some sp →
      ∃ tr0, (finish itf s tr1 st).2.1 = tr0 ++ [Ev.stopE (finish itf s tr1 st).2.2] ∧
        cCount evStop tr0 = 0) := by
  rcases hsp : itf.stop with _ | sp
  · have hw : finish itf s tr1 st = (s, tr1, st) := by
      unfold finish; rw [hsp]
    rw [hw]
    dsimp only
    refine ⟨h1, h2, h3, h4, h5, h6, h7, h8, fun _ => h9, ?_⟩
    intro sp2 hsp2
    simp [hsp] at hsp2
  · have hw : finish itf s tr1 st = (sp s st, tr1 ++ [.stopE st], st) := by
      unfold finish; rw [hsp]
    rw [hw]
    dsimp only
    have hz : ∀ g : Ev φ → Nat, g (.stopE st) = 0 → cCount g [Ev.stopE (φ := φ) st] = 0 := by
      intro g hg; simp [cCount, hg]
    refine ⟨?_, ?_, ?_, ?_, ?_, ?_, ?_, ?_, ?_, ?_⟩
    · rw [cCount_append, cCount_append, h1, hz evLeave rfl, hz evEnterPos rfl]
    · intro d hd
      rw [cCount_append, cCount_append, h2 d hd, hz (evRel d) rfl, hz (evAcq d) rfl]
    · rw [cCount_append, h3, hz (evRel Discipline.noRelease) rfl]
    · intro hh; rw [cCount_append, h4 hh, hz evEmitE rfl]
    · intro hh; rw [cCount_append, h5 hh, hz evFwr rfl]
    · intro e he
      rcases List.mem_append.mp he with hm | hm
      · exact h6 e hm
      · simp at hm
        simp [hm, fileOkEv]
    · intro hst
      exact errs_append_left (h7 hst) (by simp [isCleanup])
    · intro hst
      refine clean_append (h8 hst) ?_
      unfold Clean
      rw [firstErrish_cons_none _ (by simp [errishOf])]
      rfl
    · intro hn
      simp at hn
    · intro sp2 _
      exact ⟨tr1, rfl, h9⟩

theorem fmustach_spec (itf : Itf σ φ) (file : φ) (fuel : Nat) (s : σ) (t : List Char)
    (r : σ × List (Ev φ) × Int) (h : fmustach itf file fuel s t = some r) :
    cCount evLeave r.2.1 = cCount evEnterPos r.2.1 ∧
    (∀ d, d ≠ Discipline.noRelease → cCount (evRel d) r.2.1 = cCount (evAcq d) r.2.1) ∧
    cCount (evRel Discipline.noRelease) r.2.1 = 0 ∧
    (itf.emit = none → cCount evEmitE r.2.1 = 0) ∧
    (itf.emit.isSome → cCount evFwr r.2.1 = 0) ∧
    (∀ e ∈ r.2.1, fileOkEv file e) ∧
    (r.2.2 < 0 → Errs r.2.1 r.2.2) ∧
    (0 ≤ r.2.2 → Clean r.2.1) ∧
    (itf.stop = none → cCount evStop r.2.1 = 0) ∧
    (∀ sp, itf.stop = some sp →
      ∃ tr0, r.2.1 = tr0 ++ [Ev.stopE r.2.2] ∧ cCount evStop tr0 = 0) := by
  unfold fmustach at h
  have hinv : ∀ s0 : σ,
      some (finish itf s0 [Ev.err (φ := φ) MUSTACH_ERROR_INVALID_ITF]
        MUSTACH_ERROR_INVALID_ITF) = some r →
      cCount evLeave r.2.1 = cCount evEnterPos r.2.1 ∧
      (∀ d, d ≠ Discipline.noRelease → cCount (evRel d) r.2.1 = cCount (evAcq d) r.2.1) ∧
      cCount (evRel Discipline.noRelease) r.2.1 = 0 ∧
      (itf.emit = none → cCount evEmitE r.2.1 = 0) ∧
      (itf.emit.isSome → cCount evFwr r.2.1 = 0) ∧
      (∀ e ∈ r.2.1, fileOkEv file e) ∧
      (r.2.2 < 0 → Errs r.2.1 r.2.2) ∧
      (0 ≤ r.2.2 → Clean r.2.1) ∧
      (itf.stop = none → cCount evStop r.2.1 = 0) ∧
      (∀ sp, itf.stop = some sp →
        ∃ tr0, r.2.1 = tr0 ++ [Ev.stopE r.2.2] ∧ cCount evStop tr0 = 0) := by
    intro s0 hh
    have hr : r = finish itf s0 [Ev.err (φ := φ) MUSTACH_ERROR_INVALID_ITF]
        MUSTACH_ERROR_INVALID_ITF := by
      exact (Option.some.injEq _ _ ▸ hh).symm
    rw [hr]
    refine finish_spec itf file s0 _ _ (by simp [cCount, evLeave, evEnterPos])
      (fun d hd => by simp [cCount, evRel, evAcq])
      (by simp [cCount, evRel])
      (fun _ => by simp [cCount, evEmitE])
      (fun _ => by simp [cCount, evFwr])
      (by simp [fileOkEv])
      (fun _ => errs_single rfl)
      (fun hst => absurd hst (by decide))
      (by simp [cCount, evStop])
  rcases hen : itf.enter with _ | en
  · rw [hen] at h
    exact hinv s h
  · rcases hnx : itf.next with _ | nx
    · rw [hen, hnx] at h
      exact hinv s h
    · rcases hlv : itf.leave with _ | lv
      · rw [hen, hnx, hlv] at h
        exact hinv s h
      · rw [hen, hnx, hlv] at h
        dsimp only at h
        by_cases hv : itf.put.isNone ∧ itf.get.isNone
        · rw [if_pos hv] at h
          exact hinv s h
        · rw [if_neg hv] at h
          rcases hst : itf.start with _ | hs
          · rw [hst] at h
            rcases hp : process itf en nx lv file fuel s t dfltDelim none 0 with
              _ | ⟨s2, tr2, st2, rest2, dl2⟩
            · rw [hp] at h; cases h
            · rw [hp] at h
              dsimp only at h
              have hr : r = finish itf s2 tr2 st2 :=
                (Option.some.injEq _ _ ▸ h).symm
              rw [hr]
              have hps := process_spec itf en nx lv file fuel s t dfltDelim none 0
              rw [hp] at hps
              obtain ⟨pb, pe, pc⟩ := hps
              obtain ⟨p1, p2, p3, p4, p5, p6, p7⟩ := pb
              exact finish_spec itf file s2 tr2 st2 (by omega) p3 p4 p5 p6 p7 pe pc p2
          · rw [hst] at h
            dsimp only at h
            by_cases hsrc : (hs s).2 < 0
            · rw [if_pos hsrc] at h
              have hr : r = finish itf (hs s).1 [.startE (hs s).2] (hs s).2 :=
                (Option.some.injEq _ _ ▸ h).symm
              rw [hr]
              refine finish_spec itf file _ _ _ (by simp [cCount, evLeave, evEnterPos])
                (fun d hd => by simp [cCount, evRel, evAcq])
                (by simp [cCount, evRel])
                (fun _ => by simp [cCount, evEmitE])
                (fun _ => by simp [cCount, evFwr])
                (by simp [fileOkEv])
                (fun hx => errs_single (by simp [errishOf, hsrc]))
                (fun hx => absurd hx (by omega))
                (by simp [cCount, evStop])
            · rw [if_neg hsrc] at h
              rcases hp : process itf en nx lv file fuel (hs s).1 t dfltDelim none 0 with
                _ | ⟨s2, tr2, st2, rest2, dl2⟩
              · rw [hp] at h; cases h
              · rw [hp] at h
                dsimp only at h
                have hr : r = finish itf s2 (.startE (hs s).2 :: tr2) st2 :=
                  (Option.some.injEq _ _ ▸ h).symm
                rw [hr]
                have hps := process_spec itf en nx lv file fuel (hs s).1 t dfltDelim none 0
                rw [hp] at hps
                obtain ⟨pb, pe, pc⟩ := hps
                obtain ⟨p1, p2, p3, p4, p5, p6, p7⟩ := pb
                have hsn : errishOf (φ := φ) (.startE (hs s).2) = none := by
                  simp [errishOf]; omega
                refine finish_spec itf file _ _ _ ?_ ?_ ?_ ?_ ?_ ?_ ?_ ?_ ?_
                · simp only [cCount, evLeave, evEnterPos]
                  omega
                · intro d hd
                  simp only [cCount, evRel, evAcq]
                  rw [p3 d hd]
                · simp only [cCount, evRel]
                  rw [p4]
                · intro hh
                  simp only [cCount, evEmitE]
                  rw [p5 hh]
                · intro hh
                  simp only [cCount, evFwr]
                  rw [p6 hh]
                · intro e he
                  rcases List.mem_cons.mp he with rfl | hm
                  · simp [fileOkEv]
                  · exact p7 e hm
                · intro hx
                  exact errs_cons_none hsn (pe hx)
                · intro hx
                  exact clean_cons_none hsn (pc hx)
                · simp only [cCount, evStop]
                  rw [p2]

theorem findSplit_open (r : List Char) :
    findSplit dfltDelim.1 ('{' :: '{' :: r) = some ([], r) := by
  simp [findSplit, dfltDelim, List.isPrefixOf]

theorem findSplit_hash (r : List Char) :
    findSplit dfltDelim.2 ('#' :: 'a' :: '}' :: '}' :: r) = some (['#', 'a'], r) := by
  simp [findSplit, dfltDelim, List.isPrefixOf]

theorem findSplit_close (r : List Char) :
    findSplit dfltDelim.2 ('/' :: 'a' :: '}' :: '}' :: r) = some (['/', 'a'], r) := by
  simp [findSplit, dfltDelim, List.isPrefixOf]

theorem findSplit_openAB (r : List Char) :
    findSplit dfltDelim.1 ('A' :: 'B' :: '{' :: '{' :: r) = some (['A', 'B'], r) := by
  simp [findSplit, dfltDelim, List.isPrefixOf]

theorem findSplit_repA (n : Nat) (r : List Char) :
    findSplit dfltDelim.2 (List.replicate n 'a' ++ '}' :: '}' :: r) =
      some (List.replicate n 'a', r) := by
  induction n with
  | zero => simp [findSplit, dfltDelim, List.isPrefixOf]
  | succ n ih =>
    have ih2 : findSplit ['}', '}'] (List.replicate n 'a' ++ '}' :: '}' :: r) =
        some (List.replicate n 'a', r) := by simpa [dfltDelim] using ih
    simp [List.replicate, findSplit, dfltDelim, List.isPrefixOf, ih2]


theorem c7_lemma (n f : Nat) (hn : 1024 < n) :
    process simpleItf (fun s _ => (s, 1)) (fun s => (s, 0)) (fun s => (s, 0)) ()
      (f + 1) () (tmpl7 n) dfltDelim none 0 =
      .done () [Ev.fwr ['A', 'B'], Ev.err MUSTACH_ERROR_TAG_TOO_LONG]
        MUSTACH_ERROR_TAG_TOO_LONG [] dfltDelim := by
  obtain ⟨m, rfl⟩ : ∃ m, n = m + 1 := ⟨n - 1, by omega⟩
  unfold process
  have ht : tmpl7 (m + 1) =
      'A' :: 'B' :: '{' :: '{' ::
        (List.replicate (m + 1) 'a' ++ ('}' :: '}' :: 'C' :: 'D' :: [])) := rfl
  rw [ht, findSplit_openAB]
  dsimp only
  have hwo : writeOut simpleItf () () ['A', 'B'] false =
      ((), [Ev.fwr ['A', 'B']], 0) := rfl
  rw [hwo]
  rw [if_neg (by decide)]
  rw [findSplit_repA]
  dsimp only
  rw [List.replicate_succ]
  dsimp only
  rw [if_neg (by decide), if_neg (by decide), if_neg (by decide), if_neg (by decide),
    if_neg (by decide), if_neg (by decide), if_neg (by decide)]
  rw [if_pos (by simp [MUSTACH_MAX_LENGTH]; omega)]
  rfl



theorem c6_lemma : ∀ k, 1 ≤ k → ∀ (d f : Nat) (suffix : List Char) (cls : Option (List Char)),
    256 < d + k → k + 1 ≤ f →
    ∃ tr, process simpleItf (fun s _ => (s, 1)) (fun s => (s, 0)) (fun s => (s, 0)) ()
      f () (nestT k ++ suffix) dfltDelim cls d =
      .done () tr MUSTACH_ERROR_TOO_DEEP [] dfltDelim := by
  intro k
  induction k with
  | zero => intro h; omega
  | succ k ihk =>
    intro _ d f suffix cls hdk hf
    obtain ⟨g, rfl⟩ : ∃ g, f = g + 1 := ⟨f - 1, by omega⟩
    have ht : nestT (k + 1) ++ suffix =
        '{' :: '{' :: '#' :: 'a' :: '}' :: '}' ::
          (nestT k ++ (('{' :: '{' :: '/' :: 'a' :: '}' :: '}' :: []) ++ suffix)) := by
      simp [nestT]
    unfold process
    rw [ht, findSplit_open]
    dsimp only
    rw [show writeOut simpleItf () () [] false = ((), [], 0) from rfl]
    rw [if_neg (by decide)]
    rw [findSplit_hash]
    dsimp only
    rw [if_neg (by decide), if_neg (by decide), if_neg (by decide), if_neg (by decide)]
    rw [if_pos (by decide)]
    rw [if_neg (by decide)]
    rw [if_neg (by decide)]
    unfold secTag
    by_cases hdd : MUSTACH_MAX_DEPTH ≤ d
    · rw [if_pos hdd]
      exact ⟨[Ev.err MUSTACH_ERROR_TOO_DEEP], rfl⟩
    · rw [if_neg hdd]
      dsimp only
      rw [if_neg (by decide), if_neg (by decide)]
      rw [if_neg (by decide)]
      have hdd2 : 256 < (d + 1) + k := by
        unfold MUSTACH_MAX_DEPTH at hdd
        omega
      have hk1 : 1 ≤ k := by
        unfold MUSTACH_MAX_DEPTH at hdd
        omega
      have hff : k + 1 ≤ g := by omega
      obtain ⟨trb, htrb⟩ := ihk hk1 (d + 1) g
        (('{' :: '{' :: '/' :: 'a' :: '}' :: '}' :: []) ++ suffix) (some ['a']) hdd2 hff
      obtain ⟨g2, rfl⟩ : ∃ g2, g = g2 + 1 := ⟨g - 1, by omega⟩
      have hiter : iterLoop (φ := Unit) (fun s => (s, 0)) (fun s => (s, 0))
          (fun dl2 s2 => process simpleItf (fun s _ => (s, 1)) (fun s => (s, 0))
            (fun s => (s, 0)) () (g2 + 1) s2
            (nestT k ++ (('{' :: '{' :: '/' :: 'a' :: '}' :: '}' :: []) ++ suffix))
            dl2 (some ['a']) (d + 1)) (g2 + 1) dfltDelim () =
          .done () (trb ++ [Ev.leaveE 0]) MUSTACH_ERROR_TOO_DEEP [] dfltDelim := by
        unfold iterLoop
        rw [htrb]
        dsimp only
        rw [if_pos (by decide)]
      rw [hiter]
      dsimp only
      rw [if_pos (by decide)]
      exact ⟨Ev.enterE ['a'] 1 :: (trb ++ [Ev.leaveE 0]), rfl⟩


/-- C6: for every template whose section nesting exceeds 256 levels
(MUSTACH_MAX_DEPTH), here the family of n nested sections, rendering fails
with MUSTACH_ERROR_TOO_DEEP (-6), the depth bound being checked before any
further recursion at the offending level. -/
theorem mustachC6_too_deep (n fuel : Nat) (hn : 256 < n) (hf : n + 1 ≤ fuel) :
    (fmustach simpleItf () fuel () (nestT n)).map (fun r => r.2.2) =
      some MUSTACH_ERROR_TOO_DEEP := by
  obtain ⟨tr, htr⟩ := c6_lemma n (by omega) 0 fuel [] none (by omega) hf
  rw [List.append_nil] at htr
  unfold fmustach
  dsimp only [simpleItf] at htr ⊢
  rw [if_neg (by decide)]
  rw [htr]
  rfl

/-- C7: for every template containing a tag whose name exceeds 1024
characters (MUSTACH_MAX_LENGTH), here a variable tag with a name of n
repeated characters, rendering fails with MUSTACH_ERROR_TAG_TOO_LONG (-4)
rather than truncating, and the engine-written output is exactly the
literal text preceding the tag. -/
theorem mustachC7_tag_too_long (n fuel : Nat) (hn : 1024 < n) :
    fmustach simpleItf () (fuel + 1) () (tmpl7 n) =
      some ((), [Ev.fwr ['A', 'B'], Ev.err MUSTACH_ERROR_TAG_TOO_LONG],
        MUSTACH_ERROR_TAG_TOO_LONG) ∧
    outputOf [Ev.fwr (φ := Unit) ['A', 'B'], Ev.err MUSTACH_ERROR_TAG_TOO_LONG] = ['A', 'B'] := by
  constructor
  · have hc := c7_lemma n fuel hn
    unfold fmustach
    dsimp only [simpleItf] at hc ⊢
    rw [if_neg (by decide)]
    rw [hc]
    rfl
  · rfl


theorem finish_cons {σ φ : Type} (itf : Itf σ φ) (s : σ) (e : Ev φ) (tr : List (Ev φ))
    (st : Int) : ∃ tr2, (finish itf s (e :: tr) st).2.1 = e :: tr2 := by
  unfold finish
  rcases itf.stop with _ | sp
  · dsimp only
    exact ⟨tr, rfl⟩
  · refine ⟨tr ++ [Ev.stopE st], ?_⟩
    dsimp only
    rw [List.cons_append]

theorem partTag_head {σ φ : Type} (itf : Itf σ φ) (file : φ) (s : σ) (name : List Char)
    (dl : Delim) (depth : Nat) (rb : List Char → σ → Out σ φ) (k : σ → Out σ φ)
    (s2 : σ) (tr2 : List (Ev φ)) (st2 : Int) (r2 : List Char) (d2 : Delim)
    (hd : depth < MUSTACH_MAX_DEPTH)
    (h : partTag itf file [] s name dl depth rb k = .done s2 tr2 st2 r2 d2) :
    (∀ p, itf.partialCb = some p → ∃ rc sb X, tr2 = Ev.partialE name rc sb :: X) ∧
    (itf.partialCb = none → ∀ g, itf.get = some g → ∃ rc sb X, tr2 = Ev.getE name rc sb :: X) ∧
    (itf.partialCb = none → itf.get = none → ∀ p2, itf.put = some p2 →
      ∃ rc X, tr2 = Ev.putE name false file rc :: X) := by
  unfold partTag at h
  rw [if_neg (by omega)] at h
  refine ⟨?_, ?_, ?_⟩
  · intro p hpc
    rw [hpc] at h
    dsimp only at h
    by_cases hrc : (p s name).2.1 < 0
    · rw [if_pos hrc] at h
      injection h with _ h2
      exact ⟨_, _, _, h2.symm⟩
    · rw [if_neg hrc] at h
      rcases hb : rb (p s name).2.2.value (p s name).1 with _ | ⟨s3, tr3, st3, r3, d3⟩
      · rw [hb] at h; cases h
      · rw [hb] at h
        dsimp only at h
        by_cases hs3 : st3 < 0
        · rw [if_pos hs3] at h
          injection h with _ h2
          exact ⟨_, _, _, h2.symm⟩
        · rw [if_neg hs3] at h
          rcases hk : k s3 with _ | ⟨s4, tr4, st4, r4, d4⟩
          · rw [hk] at h; cases h
          · rw [hk] at h
            dsimp only [Out.pre] at h
            injection h with _ h2
            exact ⟨_, _, _, h2.symm⟩
  · intro hpc g hg
    rw [hpc, hg] at h
    dsimp only at h
    by_cases hrc : (g s name).2.1 < 0
    · rw [if_pos hrc] at h
      injection h with _ h2
      exact ⟨_, _, _, h2.symm⟩
    · rw [if_neg hrc] at h
      rcases hb : rb (g s name).2.2.value (g s name).1 with _ | ⟨s3, tr3, st3, r3, d3⟩
      · rw [hb] at h; cases h
      · rw [hb] at h
        dsimp only at h
        by_cases hs3 : st3 < 0
        · rw [if_pos hs3] at h
          injection h with _ h2
          exact ⟨_, _, _, h2.symm⟩
        · rw [if_neg hs3] at h
          rcases hk : k s3 with _ | ⟨s4, tr4, st4, r4, d4⟩
          · rw [hk] at h; cases h
          · rw [hk] at h
            dsimp only [Out.pre] at h
            injection h with _ h2
            exact ⟨_, _, _, h2.symm⟩
  · intro hpc hg p2 hp2
    rw [hpc, hg, hp2] at h
    dsimp only at h
    by_cases hrc : (p2 s name false file).2 < 0
    · rw [if_pos hrc] at h
      injection h with _ h2
      exact ⟨_, _, h2.symm⟩
    · rw [if_neg hrc] at h
      rcases hk : k (p2 s name false file).1 with _ | ⟨s4, tr4, st4, r4, d4⟩
      · rw [hk] at h; cases h
      · rw [hk] at h
        dsimp only [Out.pre] at h
        injection h with _ h2
        exact ⟨_, _, h2.symm⟩


/-- C9: for every partial tag, the partial text is obtained with the exact
precedence partial-callback, then get, then delegation to put invoked with
the true FILE destination: the first collaborator event of the render is
the invocation of precisely that callback. -/
theorem mustachC9_partial_precedence {σ φ : Type} (itf : Itf σ φ) (file : φ) (fuel : Nat) (s : σ)
    (en : σ → List Char → σ × Int) (nx lv : σ → σ × Int)
    (hen : itf.enter = some en) (hnx : itf.next = some nx) (hlv : itf.leave = some lv)
    (hstart : itf.start = none) (hv : ¬ (itf.put.isNone ∧ itf.get.isNone))
    (r : σ × List (Ev φ) × Int) (hrun : fmustach itf file fuel s tmplP9.data = some r) :
    (∀ p, itf.partialCb = some p → ∃ rc sb X, r.2.1 = Ev.partialE ['q'] rc sb :: X) ∧
    (itf.partialCb = none → ∀ g, itf.get = some g →
      ∃ rc sb X, r.2.1 = Ev.getE ['q'] rc sb :: X) ∧
    (itf.partialCb = none → itf.get = none → ∀ p2, itf.put = some p2 →
      ∃ rc X, r.2.1 = Ev.putE ['q'] false file rc :: X) := by
  unfold fmustach at hrun
  rw [hen, hnx, hlv] at hrun
  dsimp only at hrun
  rw [if_neg hv] at hrun
  rw [hstart] at hrun
  dsimp only at hrun
  rcases fuel with _ | f
  · simp [process] at hrun
  · rcases hp : process itf en nx lv file (f + 1) s tmplP9.data dfltDelim none 0 with
      _ | ⟨s2, tr2, st2, r2, d2⟩
    · rw [hp] at hrun; cases hrun
    · rw [hp] at hrun
      dsimp only at hrun
      have hr : r = finish itf s2 tr2 st2 := by
        injection hrun with h2
        exact h2.symm
      unfold process at hp
      rw [show tmplP9.data = '{' :: '{' :: '>' :: 'q' :: '}' :: '}' :: [] from rfl] at hp
      rw [findSplit_open] at hp
      dsimp only at hp
      rw [show writeOut itf file s [] false = (s, [], 0) from rfl] at hp
      rw [if_neg (by simp)] at hp
      rw [show findSplit dfltDelim.2 ['>', 'q', '}', '}'] = some (['>', 'q'], []) from rfl] at hp
      dsimp only at hp
      rw [if_neg (by decide), if_neg (by decide), if_neg (by decide), if_neg (by decide),
        if_neg (by decide), if_neg (by decide)] at hp
      rw [if_pos (by decide)] at hp
      rw [if_neg (by decide)] at hp
      rw [if_neg (by decide)] at hp
      obtain ⟨ha, hb, hc⟩ := partTag_head itf file s ['q'] dfltDelim 0 _ _ s2 tr2 st2 r2 d2
        (by decide) hp
      refine ⟨?_, ?_, ?_⟩
      · intro p hpc
        obtain ⟨rc, sb, X, hX⟩ := ha p hpc
        obtain ⟨Y, hY⟩ := finish_cons itf s2 (Ev.partialE ['q'] rc sb) X st2
        refine ⟨rc, sb, Y, ?_⟩
        rw [hr, hX]
        exact hY
      · intro hpc g hg
        obtain ⟨rc, sb, X, hX⟩ := hb hpc g hg
        obtain ⟨Y, hY⟩ := finish_cons itf s2 (Ev.getE ['q'] rc sb) X st2
        refine ⟨rc, sb, Y, ?_⟩
        rw [hr, hX]
        exact hY
      · intro hpc hg p2 hp2
        obtain ⟨rc, X, hX⟩ := hc hpc hg p2 hp2
        obtain ⟨Y, hY⟩ := finish_cons itf s2 (Ev.putE ['q'] false file rc) X st2
        refine ⟨rc, Y, ?_⟩
        rw [hr, hX]
        exact hY

theorem finish_snd {σ φ : Type} (itf : Itf σ φ) (s : σ) (tr : List (Ev φ)) (st : Int) :
    (finish itf s tr st).2.2 = st := by
  unfold finish
  rcases itf.stop with _ | sp
  · rfl
  · rfl

theorem mem_releaseTr {sb : Sbuf} {e : Ev φ} (h : e ∈ releaseTr (φ := φ) sb) :
    e = Ev.rel sb := by
  unfold releaseTr at h
  by_cases hd : sb.disc = Discipline.noRelease
  · rw [if_pos hd] at h
    cases h
  · rw [if_neg hd] at h
    rcases List.mem_cons.mp h with rfl | hm
    · rfl
    · cases hm

theorem cEnterPos_eq_one {tr : List (Ev φ)}
    (h : ∀ e ∈ tr, ∀ nm rc, e = Ev.enterE nm rc → rc ≤ 1) :
    cCount evEnterPos tr = cCount evEnterOne tr := by
  induction tr with
  | nil => rfl
  | cons e t ih =>
    have ht : ∀ e2 ∈ t, ∀ nm rc, e2 = Ev.enterE nm rc → rc ≤ 1 := by
      intro e2 he2 nm rc hrc
      exact h e2 (List.mem_cons_of_mem e he2) nm rc hrc
    have he : evEnterPos e = evEnterOne e := by
      cases e with
      | enterE nm rc =>
        have hb := h _ (List.mem_cons_self _ _) nm rc rfl
        simp only [evEnterPos, evEnterOne]
        by_cases h1 : rc = 1
        · rw [if_pos (show (0 : Int) < rc by omega), if_pos h1]
        · rw [if_neg (show ¬ (0 : Int) < rc by omega), if_neg h1]
      | startE rc => rfl
      | putE nm esc f rc => rfl
      | nextE rc => rfl
      | leaveE rc => rfl
      | partialE nm rc sb => rfl
      | emitE b esc f rc => rfl
      | getE nm rc sb => rfl
      | stopE st => rfl
      | fwr b => rfl
      | rel sb => rfl
      | err c => rfl
    simp only [cCount, he, ih ht]

/-- C1: for every render call (fmustach, fdmustach, or mustach) whose
interface supplies neither put nor get, the render fails immediately with
MUSTACH_ERROR_INVALID_ITF (-9): the result is fixed independently of the
template, no template text is consumed (no engine output), and no
collaborator callback runs besides the final stop notification, which per
the contract always receives the final status. -/
theorem mustachC1_invalid_itf {σ φ : Type} (itf : Itf σ φ) (file : φ) (fuel : Nat)
    (s : σ) (t : List Char) (hput : itf.put = none) (hget : itf.get = none) :
    fmustach itf file fuel s t =
      some (finish itf s [Ev.err MUSTACH_ERROR_INVALID_ITF] MUSTACH_ERROR_INVALID_ITF) ∧
    fdmustach itf file fuel s t =
      some (finish itf s [Ev.err MUSTACH_ERROR_INVALID_ITF] MUSTACH_ERROR_INVALID_ITF) ∧
    mustach itf file fuel s t =
      some ((finish itf s [Ev.err MUSTACH_ERROR_INVALID_ITF] MUSTACH_ERROR_INVALID_ITF).1,
        (finish itf s [Ev.err MUSTACH_ERROR_INVALID_ITF] MUSTACH_ERROR_INVALID_ITF).2.1,
        MUSTACH_ERROR_INVALID_ITF, none) ∧
    outputOf (finish itf s [Ev.err MUSTACH_ERROR_INVALID_ITF]
      MUSTACH_ERROR_INVALID_ITF).2.1 = [] := by
  have hf : fmustach itf file fuel s t =
      some (finish itf s [Ev.err MUSTACH_ERROR_INVALID_ITF] MUSTACH_ERROR_INVALID_ITF) := by
    unfold fmustach
    rcases hen : itf.enter with _ | en
    · rfl
    · rcases hnx : itf.next with _ | nx
      · rfl
      · rcases hlv : itf.leave with _ | lv
        · rfl
        · dsimp only
          rw [if_pos ⟨by simp [hput], by simp [hget]⟩]
  refine ⟨hf, hf, ?_, ?_⟩
  · unfold mustach
    rw [hf]
    dsimp only
    rw [finish_snd]
    rw [if_neg (by decide)]
  · unfold finish
    rcases hsp : itf.stop with _ | sp
    · rfl
    · rfl

/-- Witness for C1: a concrete interface with put and get absent and a
stop hook present fails with the invalid-interface error. -/
theorem mustachC1_w :
    itfC1.put = none ∧ itfC1.get = none ∧
    fmustach itfC1 () 5 0 tmplVar.data =
      some (finish itfC1 0 [Ev.err MUSTACH_ERROR_INVALID_ITF] MUSTACH_ERROR_INVALID_ITF) :=
  ⟨rfl, rfl, (mustachC1_invalid_itf itfC1 () 5 0 tmplVar.data rfl rfl).1⟩

/-- C3: in every render, on every exit path including error aborts, the
number of leave invocations equals the number of enter invocations that
returned 1, for any data model conforming to the enter contract (results
at most 1): leave runs exactly once per entered frame and never for a
frame whose enter returned 0 or a negative value. -/
theorem mustachC3_leave_balance {σ φ : Type} (itf : Itf σ φ) (file : φ) (fuel : Nat)
    (s : σ) (t : List Char) (r : σ × List (Ev φ) × Int)
    (hrun : fmustach itf file fuel s t = some r)
    (hconf : ∀ e ∈ r.2.1, ∀ nm rc, e = Ev.enterE nm rc → rc ≤ 1) :
    cCount evLeave r.2.1 = cCount evEnterOne r.2.1 := by
  obtain ⟨h1, _⟩ := fmustach_spec itf file fuel s t r hrun
  rw [h1]
  exact cEnterPos_eq_one hconf

/-- Witness for C3: a full render with one entered section, one leave. -/
theorem mustachC3_w :
    fmustach wItf () 30 0 tmplSec.data =
      some (111, [Ev.startE 0, Ev.enterE ['a'] 1,
        Ev.getE ['x'] 0 ⟨['<', 'v'], Discipline.freecb 3⟩,
        Ev.fwr ['&', 'l', 't', ';', 'v'],
        Ev.rel ⟨['<', 'v'], Discipline.freecb 3⟩,
        Ev.nextE 0, Ev.leaveE 0, Ev.stopE 0], 0) ∧
    cCount evLeave [Ev.startE (φ := Unit) 0, Ev.enterE ['a'] 1,
        Ev.getE ['x'] 0 ⟨['<', 'v'], Discipline.freecb 3⟩,
        Ev.fwr ['&', 'l', 't', ';', 'v'],
        Ev.rel ⟨['<', 'v'], Discipline.freecb 3⟩,
        Ev.nextE 0, Ev.leaveE 0, Ev.stopE 0] =
      cCount evEnterOne [Ev.startE (φ := Unit) 0, Ev.enterE ['a'] 1,
        Ev.getE ['x'] 0 ⟨['<', 'v'], Discipline.freecb 3⟩,
        Ev.fwr ['&', 'l', 't', ';', 'v'],
        Ev.rel ⟨['<', 'v'], Discipline.freecb 3⟩,
        Ev.nextE 0, Ev.leaveE 0, Ev.stopE 0] :=
  ⟨by decide,
    mustachC3_leave_balance wItf () 30 0 tmplSec.data
      (111, [Ev.startE 0, Ev.enterE ['a'] 1,
        Ev.getE ['x'] 0 ⟨['<', 'v'], Discipline.freecb 3⟩,
        Ev.fwr ['&', 'l', 't', ';', 'v'],
        Ev.rel ⟨['<', 'v'], Discipline.freecb 3⟩,
        Ev.nextE 0, Ev.leaveE 0, Ev.stopE 0], 0) (by decide)
      (by
        intro e he nm rc hrc
        subst hrc
        simp at he
        obtain ⟨h1, h2⟩ := he
        omega)⟩

/-- C5: in every render, lent strings obtained from get or partial are
released exactly once according to their tagged discipline, counted per
discipline across success and error paths alike, and strings with no
release callback are never released. -/
theorem mustachC5_release_balance {σ φ : Type} (itf : Itf σ φ) (file : φ) (fuel : Nat)
    (s : σ) (t : List Char) (r : σ × List (Ev φ) × Int)
    (hrun : fmustach itf file fuel s t = some r) :
    (∀ d, d ≠ Discipline.noRelease →
      cCount (evRel d) r.2.1 = cCount (evAcq d) r.2.1) ∧
    cCount (evRel Discipline.noRelease) r.2.1 = 0 := by
  obtain ⟨_, h2, h3, _⟩ := fmustach_spec itf file fuel s t r hrun
  exact ⟨h2, h3⟩

/-- Witness for C5: a render acquiring one free-release value and one
closure-release partial, each released exactly once. -/
theorem mustachC5_w :
    fmustach wItf () 31 0 tmplMix.data =
      some (111, [Ev.startE 0, Ev.enterE ['a'] 1,
        Ev.getE ['x'] 0 ⟨['<', 'v'], Discipline.freecb 3⟩,
        Ev.fwr ['&', 'l', 't', ';', 'v'],
        Ev.rel ⟨['<', 'v'], Discipline.freecb 3⟩,
        Ev.nextE 0, Ev.leaveE 0, Ev.fwr ['L'],
        Ev.partialE ['q'] 0 ⟨['P'], Discipline.releasecb 4 9⟩,
        Ev.fwr ['P'],
        Ev.rel ⟨['P'], Discipline.releasecb 4 9⟩, Ev.stopE 0], 0) ∧
    Discipline.releasecb 4 9 ≠ Discipline.noRelease ∧
    cCount (evRel (Discipline.releasecb 4 9)) [Ev.startE (φ := Unit) 0, Ev.enterE ['a'] 1,
        Ev.getE ['x'] 0 ⟨['<', 'v'], Discipline.freecb 3⟩,
        Ev.fwr ['&', 'l', 't', ';', 'v'],
        Ev.rel ⟨['<', 'v'], Discipline.freecb 3⟩,
        Ev.nextE 0, Ev.leaveE 0, Ev.fwr ['L'],
        Ev.partialE ['q'] 0 ⟨['P'], Discipline.releasecb 4 9⟩,
        Ev.fwr ['P'],
        Ev.rel ⟨['P'], Discipline.releasecb 4 9⟩, Ev.stopE 0] =
      cCount (evAcq (Discipline.releasecb 4 9)) [Ev.startE (φ := Unit) 0, Ev.enterE ['a'] 1,
        Ev.getE ['x'] 0 ⟨['<', 'v'], Discipline.freecb 3⟩,
        Ev.fwr ['&', 'l', 't', ';', 'v'],
        Ev.rel ⟨['<', 'v'], Discipline.freecb 3⟩,
        Ev.nextE 0, Ev.leaveE 0, Ev.fwr ['L'],
        Ev.partialE ['q'] 0 ⟨['P'], Discipline.releasecb 4 9⟩,
        Ev.fwr ['P'],
        Ev.rel ⟨['P'], Discipline.releasecb 4 9⟩, Ev.stopE 0] :=
  ⟨by decide, by decide,
    (mustachC5_release_balance wItf () 31 0 tmplMix.data
      (111, [Ev.startE 0, Ev.enterE ['a'] 1,
        Ev.getE ['x'] 0 ⟨['<', 'v'], Discipline.freecb 3⟩,
        Ev.fwr ['&', 'l', 't', ';', 'v'],
        Ev.rel ⟨['<', 'v'], Discipline.freecb 3⟩,
        Ev.nextE 0, Ev.leaveE 0, Ev.fwr ['L'],
        Ev.partialE ['q'] 0 ⟨['P'], Discipline.releasecb 4 9⟩,
        Ev.fwr ['P'],
        Ev.rel ⟨['P'], Discipline.releasecb 4 9⟩, Ev.stopE 0], 0) (by decide)).1
      (Discipline.releasecb 4 9) (by decide)⟩

/-- C8: for every completed render whose interface supplies stop, the stop
notification is invoked exactly once, as the very last event, receiving
the render's final status, regardless of success or failure. -/
theorem mustachC8_stop_once {σ φ : Type} (itf : Itf σ φ) (file : φ) (fuel : Nat)
    (s : σ) (t : List Char) (sp : σ → Int → σ) (hsp : itf.stop = some sp)
    (r : σ × List (Ev φ) × Int) (hrun : fmustach itf file fuel s t = some r) :
    cCount evStop r.2.1 = 1 ∧
    ∃ tr0, r.2.1 = tr0 ++ [Ev.stopE r.2.2] ∧ cCount evStop tr0 = 0 := by
  obtain ⟨_, _, _, _, _, _, _, _, _, h10⟩ := fmustach_spec itf file fuel s t r hrun
  obtain ⟨tr0, htr, hc⟩ := h10 sp hsp
  constructor
  · rw [htr, cCount_append, hc]
    simp [cCount, evStop]
  · exact ⟨tr0, htr, hc⟩

/-- Witness for C8: the stop notification appears exactly once, last, with
the final status, in a concrete failing render. -/
theorem mustachC8_w :
    (fmustach { itfC4 with stop := some (fun s _ => s + 7) } () 20 0 tmplSec.data =
      some (7, [Ev.enterE ['a'] 1, Ev.getE ['x'] (-50) ⟨[], Discipline.noRelease⟩,
        Ev.leaveE (-60), Ev.stopE (-50)], -50)) ∧
    cCount evStop [Ev.enterE (φ := Unit) ['a'] 1,
      Ev.getE ['x'] (-50) ⟨[], Discipline.noRelease⟩,
      Ev.leaveE (-60), Ev.stopE (-50)] = 1 :=
  ⟨by decide,
    (mustachC8_stop_once { itfC4 with stop := some (fun s _ => s + 7) } () 20 0
      tmplSec.data (fun s _ => s + 7) rfl
      (7, [Ev.enterE ['a'] 1, Ev.getE ['x'] (-50) ⟨[], Discipline.noRelease⟩,
        Ev.leaveE (-60), Ev.stopE (-50)], -50) (by decide)).1⟩

/-- C10: in every render, when emit is absent every engine write is a
default fwrite to the destination and emit is never invoked; when emit is
defined it is invoked instead and no default fwrite occurs; and the opaque
FILE value is passed through unchanged to every put and emit invocation. -/
theorem mustachC10_emit_fwrite {σ φ : Type} (itf : Itf σ φ) (file : φ) (fuel : Nat)
    (s : σ) (t : List Char) (r : σ × List (Ev φ) × Int)
    (hrun : fmustach itf file fuel s t = some r) :
    (itf.emit = none → cCount evEmitE r.2.1 = 0) ∧
    (∀ em, itf.emit = some em → cCount evFwr r.2.1 = 0) ∧
    (∀ e ∈ r.2.1, fileOkEv file e) := by
  obtain ⟨_, _, _, h4, h5, h6, _⟩ := fmustach_spec itf file fuel s t r hrun
  exact ⟨h4, fun em hem => h5 (by simp [hem]), h6⟩

/-- Witness for C10: with emit absent the trace has no emit events; with
emit defined it has no default writes. -/
theorem mustachC10_w :
    wItf.emit = none ∧
    cCount evEmitE [Ev.startE (φ := Unit) 0, Ev.enterE ['a'] 1,
      Ev.getE ['x'] 0 ⟨['<', 'v'], Discipline.freecb 3⟩,
      Ev.fwr ['&', 'l', 't', ';', 'v'],
      Ev.rel ⟨['<', 'v'], Discipline.freecb 3⟩,
      Ev.nextE 0, Ev.leaveE 0, Ev.stopE 0] = 0 ∧
    itfC2.emit.isSome = true ∧
    cCount evFwr [Ev.getE (φ := Unit) ['x'] 0 ⟨['<'], Discipline.noRelease⟩,
      Ev.emitE ['<'] true () 0] = 0 :=
  ⟨rfl,
    (mustachC10_emit_fwrite wItf () 30 0 tmplSec.data
      (111, [Ev.startE 0, Ev.enterE ['a'] 1,
        Ev.getE ['x'] 0 ⟨['<', 'v'], Discipline.freecb 3⟩,
        Ev.fwr ['&', 'l', 't', ';', 'v'],
        Ev.rel ⟨['<', 'v'], Discipline.freecb 3⟩,
        Ev.nextE 0, Ev.leaveE 0, Ev.stopE 0], 0) (by decide)).1 rfl,
    rfl,
    (mustachC10_emit_fwrite itfC2 () 9 0 tmplVar.data
      (1, [Ev.getE ['x'] 0 ⟨['<'], Discipline.noRelease⟩,
        Ev.emitE ['<'] true () 0], 0) (by decide)).2.1 _ rfl⟩

/-- C4 (amended): whenever any collaborator callback returns a negative
value (or the engine raises an error), the render fails; the FIRST such
error signal is returned verbatim as the final result, and after it only
cleanup events occur (unwinding leave notifications, lent-string releases
and the final stop notification); a negative value returned by a leave
invoked during unwinding is discarded, not returned. -/
theorem mustachC4_first_error {σ φ : Type} (itf : Itf σ φ) (file : φ) (fuel : Nat)
    (s : σ) (t : List Char) (r : σ × List (Ev φ) × Int)
    (hrun : fmustach itf file fuel s t = some r)
    (e : Ev φ) (he : e ∈ r.2.1) (w : Int) (hw : errishOf e = some w) :
    r.2.2 < 0 ∧ firstErrish r.2.1 = some r.2.2 ∧ ∀ x ∈ postErr r.2.1, isCleanup x := by
  obtain ⟨_, _, _, _, _, _, h7, h8, _⟩ := fmustach_spec itf file fuel s t r hrun
  by_cases hst : r.2.2 < 0
  · obtain ⟨e1, e2⟩ := h7 hst
    exact ⟨hst, e1, e2⟩
  · have hc := h8 (by omega)
    rw [firstErrish_none_mem hc he] at hw
    cases hw

/-- Counterexample for C4 as stated: get aborts with -50, the unwinding
leave returns -60 (a negative value from a collaborator callback), yet the
render's final result is -50, not -60. -/
theorem mustachC4_cx :
    fmustach itfC4 () 20 0 tmplSec.data =
      some (0, [Ev.enterE ['a'] 1, Ev.getE ['x'] (-50) ⟨[], Discipline.noRelease⟩,
        Ev.leaveE (-60)], -50) ∧
    Ev.leaveE (-60) ∈ [Ev.enterE (φ := Unit) ['a'] 1,
      Ev.getE ['x'] (-50) ⟨[], Discipline.noRelease⟩, Ev.leaveE (-60)] ∧
    ((-60 : Int) < 0) ∧ ((-50 : Int) ≠ -60) := by
  refine ⟨by decide, by decide, by decide, by decide⟩

/-- Witness for C4 (amended): in the same failing render the first error
signal -50 is the final result and only cleanup follows it. -/
theorem mustachC4_w :
    fmustach itfC4 () 21 0 tmplSec.data =
      some (0, [Ev.enterE ['a'] 1, Ev.getE ['x'] (-50) ⟨[], Discipline.noRelease⟩,
        Ev.leaveE (-60)], -50) ∧
    errishOf (Ev.getE (φ := Unit) ['x'] (-50) ⟨[], Discipline.noRelease⟩) = some (-50) ∧
    ((0, [Ev.enterE (φ := Unit) ['a'] 1,
      Ev.getE ['x'] (-50) ⟨[], Discipline.noRelease⟩,
      Ev.leaveE (-60)], (-50 : Int)) : Nat × List (Ev Unit) × Int).2.2 < 0 ∧
    firstErrish [Ev.enterE (φ := Unit) ['a'] 1,
      Ev.getE ['x'] (-50) ⟨[], Discipline.noRelease⟩, Ev.leaveE (-60)] = some (-50) :=
  ⟨by decide, by decide,
    (mustachC4_first_error itfC4 () 21 0 tmplSec.data
      (0, [Ev.enterE ['a'] 1, Ev.getE ['x'] (-50) ⟨[], Discipline.noRelease⟩,
        Ev.leaveE (-60)], -50) (by decide)
      (Ev.getE ['x'] (-50) ⟨[], Discipline.noRelease⟩) (by decide) (-50) (by decide)).1,
    ((mustachC4_first_error itfC4 () 21 0 tmplSec.data
      (0, [Ev.enterE ['a'] 1, Ev.getE ['x'] (-50) ⟨[], Discipline.noRelease⟩,
        Ev.leaveE (-60)], -50) (by decide)
      (Ev.getE ['x'] (-50) ⟨[], Discipline.noRelease⟩) (by decide) (-50) (by decide)).2).1⟩

theorem writeOut_cases {σ φ : Type} (itf : Itf σ φ) (file : φ) (s : σ)
    (bytes : List Char) (esc : Bool) :
    (bytes = [] ∧ (writeOut itf file s bytes esc).2.1 = []) ∨
    (∃ em, itf.emit = some em ∧ (writeOut itf file s bytes esc).2.1 =
      [Ev.emitE bytes esc file (em s bytes esc file).2]) ∨
    (itf.emit = none ∧ (writeOut itf file s bytes esc).2.1 =
      [Ev.fwr (if esc then escapeL bytes else bytes)]) := by
  unfold writeOut
  by_cases hb : bytes = []
  · rw [if_pos hb]
    exact Or.inl ⟨hb, rfl⟩
  · rw [if_neg hb]
    cases hem : itf.emit with
    | some em => exact Or.inr (Or.inl ⟨em, rfl, rfl⟩)
    | none => exact Or.inr (Or.inr ⟨rfl, rfl⟩)

/-- C2 (amended): for every variable tag rendered with an interface that
supplies get, get (not put) produces the value; the engine then hands the
RAW produced bytes together with the escape flag to emit when emit is
supplied — emit is responsible for escaping — while only on the default
write path (emit absent) does the engine itself escape before the raw
write to the destination. -/
theorem mustachC2_get_preferred {σ φ : Type} (itf : Itf σ φ) (file : φ) (s : σ)
    (name : List Char) (esc : Bool) (g : σ → List Char → σ × Int × Sbuf)
    (hg : itf.get = some g) (s1 : σ) (rc : Int) (sb : Sbuf)
    (hr : g s name = (s1, rc, sb)) (hrc : 0 ≤ rc)
    (s2 : σ) (tr : List (Ev φ)) (st : Int)
    (he : emitValue itf file s name esc = (s2, tr, st)) :
    (∀ e ∈ tr, ∀ nm esc2 f2 rc2, e ≠ Ev.putE nm esc2 f2 rc2) ∧
    Ev.getE name rc sb ∈ tr ∧
    (∀ em, itf.emit = some em → sb.value ≠ [] →
      Ev.emitE sb.value esc file (em s1 sb.value esc file).2 ∈ tr) ∧
    (itf.emit = none →
      tr = Ev.getE name rc sb ::
        ((if sb.value = [] then [] else
          [Ev.fwr (if esc then escapeL sb.value else sb.value)]) ++ releaseTr sb)) := by
  have hw : emitValue itf file s name esc =
      ((writeOut itf file s1 sb.value esc).1,
        Ev.getE name rc sb ::
          ((writeOut itf file s1 sb.value esc).2.1 ++ releaseTr sb),
        (writeOut itf file s1 sb.value esc).2.2) := by
    unfold emitValue
    rw [hg]
    dsimp only
    rw [hr]
    dsimp only
    rw [if_neg (by omega)]
  rw [he] at hw
  have htr : tr = Ev.getE name rc sb ::
      ((writeOut itf file s1 sb.value esc).2.1 ++ releaseTr sb) := by
    have h2 := congrArg (fun p => p.2.1) hw
    simpa using h2
  refine ⟨?_, ?_, ?_, ?_⟩
  · intro e hee nm esc2 f2 rc2 heq
    rw [htr] at hee
    rcases List.mem_cons.mp hee with rfl | hm
    · exact Ev.noConfusion heq
    · rcases List.mem_append.mp hm with hm1 | hm2
      · rcases writeOut_cases itf file s1 sb.value esc with ⟨hb, hnil⟩ | ⟨em, hem, heq2⟩ |
          ⟨hem, heq2⟩
        · rw [hnil] at hm1
          cases hm1
        · rw [heq2, List.mem_singleton] at hm1
          subst hm1
          exact Ev.noConfusion heq
        · rw [heq2, List.mem_singleton] at hm1
          subst hm1
          exact Ev.noConfusion heq
      · rw [mem_releaseTr hm2] at heq
        exact Ev.noConfusion heq
  · rw [htr]
    exact List.mem_cons_self _ _
  · intro em hem hne
    have hw2 : (writeOut itf file s1 sb.value esc).2.1 =
        [Ev.emitE sb.value esc file (em s1 sb.value esc file).2] := by
      unfold writeOut
      rw [if_neg hne, hem]
    rw [htr, hw2]
    simp
  · intro hemn
    by_cases hb : sb.value = []
    · have hw2 : (writeOut itf file s1 sb.value esc).2.1 = [] := by
        unfold writeOut
        rw [if_pos hb]
      rw [htr, hw2, if_pos hb]
    · have hw2 : (writeOut itf file s1 sb.value esc).2.1 =
          [Ev.fwr (if esc then escapeL sb.value else sb.value)] := by
        unfold writeOut
        rw [if_neg hb, hemn]
      rw [htr, hw2, if_neg hb]

/-- Counterexample for C2 as stated: rendering the variable tag with an
interface supplying emit, the engine passes the raw unescaped byte '<' to
emit with the escape flag, and no event carrying the escaped form of the
value ever occurs: the bytes are NOT escaped before being written via
emit. -/
theorem mustachC2_cx :
    fmustach itfC2 () 9 0 tmplVar.data =
      some (1, [Ev.getE ['x'] 0 ⟨['<'], Discipline.noRelease⟩,
        Ev.emitE ['<'] true () 0], 0) ∧
    Ev.emitE ['<'] true () 0 ∈
      [Ev.getE (φ := Unit) ['x'] 0 ⟨['<'], Discipline.noRelease⟩,
        Ev.emitE ['<'] true () 0] ∧
    escapeL ['<'] ≠ ['<'] ∧
    (∀ e ∈ [Ev.getE (φ := Unit) ['x'] 0 ⟨['<'], Discipline.noRelease⟩,
      Ev.emitE ['<'] true () 0], e ≠ Ev.emitE (escapeL ['<']) true () 0) := by
  refine ⟨by decide, by decide, by decide, by decide⟩

/-- Witness for C2 (amended): with get and emit both supplied and put also
supplied, get produces '<' for the variable tag and emit receives the raw
byte with the escape flag. -/
theorem mustachC2_w :
    emitValue itfC2 () 0 ['x'] true =
      (1, [Ev.getE ['x'] 0 ⟨['<'], Discipline.noRelease⟩, Ev.emitE ['<'] true () 0], 0) ∧
    Ev.getE (φ := Unit) ['x'] 0 ⟨['<'], Discipline.noRelease⟩ ∈
      [Ev.getE (φ := Unit) ['x'] 0 ⟨['<'], Discipline.noRelease⟩,
        Ev.emitE ['<'] true () 0] ∧
    Ev.emitE (φ := Unit) ['<'] true () 0 ∈
      [Ev.getE (φ := Unit) ['x'] 0 ⟨['<'], Discipline.noRelease⟩,
        Ev.emitE ['<'] true () 0] :=
  ⟨by decide,
    (mustachC2_get_preferred itfC2 () 0 ['x'] true
      (fun s _ => (s, 0, ⟨['<'], Discipline.noRelease⟩)) rfl
      0 0 ⟨['<'], Discipline.noRelease⟩ rfl (by decide)
      1 [Ev.getE ['x'] 0 ⟨['<'], Discipline.noRelease⟩, Ev.emitE ['<'] true () 0] 0
      (by decide)).2.1,
    (mustachC2_get_preferred itfC2 () 0 ['x'] true
      (fun s _ => (s, 0, ⟨['<'], Discipline.noRelease⟩)) rfl
      0 0 ⟨['<'], Discipline.noRelease⟩ rfl (by decide)
      1 [Ev.getE ['x'] 0 ⟨['<'], Discipline.noRelease⟩, Ev.emitE ['<'] true () 0] 0
      (by decide)).2.2.1 (fun s _ _ _ => (s + 1, 0)) rfl (by decide)⟩

/-- Witness for C6: a template of 257 nested sections fails with the
too-deep error. -/
theorem mustachC6_w :
    256 < 257 ∧ 257 + 1 ≤ 258 ∧
    (fmustach simpleItf () 258 () (nestT 257)).map (fun r => r.2.2) =
      some MUSTACH_ERROR_TOO_DEEP :=
  ⟨by decide, by decide, mustachC6_too_deep 257 258 (by decide) (by decide)⟩

/-- Witness for C7: a variable tag with a 1025-character name fails with
the tag-too-long error after emitting only the preceding literal text. -/
theorem mustachC7_w :
    1024 < 1025 ∧
    fmustach simpleItf () 1 () (tmpl7 1025) =
      some ((), [Ev.fwr ['A', 'B'], Ev.err MUSTACH_ERROR_TAG_TOO_LONG],
        MUSTACH_ERROR_TAG_TOO_LONG) :=
  ⟨by decide, (mustachC7_tag_too_long 1025 0 (by decide)).1⟩

/-- Witness for C9: the same partial template rendered under three
interfaces — all three callbacks, get and put only, put only — begins with
the partial callback, the get callback and the put callback respectively. -/
theorem mustachC9_w :
    fmustach itfC9a () 10 0 tmplP9.data =
      some (0, [Ev.partialE ['q'] 0 ⟨['P'], Discipline.noRelease⟩, Ev.fwr ['P']], 0) ∧
    (∃ rc sb X, ((0 : Nat), [Ev.partialE (φ := Unit) ['q'] 0 ⟨['P'], Discipline.noRelease⟩,
        Ev.fwr ['P']], (0 : Int)).2.1 = Ev.partialE ['q'] rc sb :: X) ∧
    (∃ rc sb X, ((0 : Nat), [Ev.getE (φ := Unit) ['q'] 0 ⟨['G'], Discipline.noRelease⟩,
        Ev.fwr ['G']], (0 : Int)).2.1 = Ev.getE ['q'] rc sb :: X) ∧
    (∃ rc X, ((0 : Nat), [Ev.putE (φ := Unit) ['q'] false () 0], (0 : Int)).2.1 =
        Ev.putE ['q'] false () rc :: X) :=
  ⟨by decide,
    (mustachC9_partial_precedence itfC9a () 10 0 (fun s _ => (s, 1)) (fun s => (s, 0))
      (fun s => (s, 0)) rfl rfl rfl rfl (by decide)
      (0, [Ev.partialE ['q'] 0 ⟨['P'], Discipline.noRelease⟩, Ev.fwr ['P']], 0)
      (by decide)).1 (fun s _ => (s, 0, ⟨['P'], Discipline.noRelease⟩)) rfl,
    (mustachC9_partial_precedence itfC9b () 10 0 (fun s _ => (s, 1)) (fun s => (s, 0))
      (fun s => (s, 0)) rfl rfl rfl rfl (by decide)
      (0, [Ev.getE ['q'] 0 ⟨['G'], Discipline.noRelease⟩, Ev.fwr ['G']], 0)
      (by decide)).2.1 rfl (fun s _ => (s, 0, ⟨['G'], Discipline.noRelease⟩)) rfl,
    (mustachC9_partial_precedence itfC9c () 10 0 (fun s _ => (s, 1)) (fun s => (s, 0))
      (fun s => (s, 0)) rfl rfl rfl rfl (by decide)
      (0, [Ev.putE ['q'] false () 0], 0)
      (by decide)).2.2 rfl rfl (fun s _ _ _ => (s, 0)) rfl⟩
